import Mathlib

set_option maxHeartbeats 1600000
set_option maxRecDepth 8000

/-!
Verification of the adversarial-search engine (Assignment 09), the
backtracking Sudoku solver (Assignment 08) and the tree serialization
(Assignment 01) of the repository.  Each C++ function is shallowly embedded
as an executable Lean definition; the claims about the code are then proved
or refuted as theorems about these definitions.
-/

namespace TTT

/-- The 3x3 Tic-Tac-Toe board of class `Grid`: nine character cells in
row-major order (`char squares[width * height]` with `width = height = 3`). -/
abbrev Grid : Type := { l : List Char // l.length = 9 }

/-- The blank mark `Grid::_`. -/
def blank : Char := ' '

/-- Reading `squares[i]`. -/
def Grid.get (g : Grid) (i : Nat) : Char := g.val.getD i ' '

/-- `Grid::set(i, c)`: writes mark `c` into cell `i`. -/
def Grid.set (g : Grid) (i : Nat) (c : Char) : Grid :=
  ⟨g.val.set i c, by rw [List.length_set]; exact g.property⟩

/-- `Grid::emptyIndices()`: the indices of all blank cells, in increasing
order (the C++ loop scans `i = 0 .. 8` and pushes the blank ones). -/
def Grid.emptyIndices (g : Grid) : List Nat :=
  (List.range 9).filter (fun i => g.get i == ' ')

/-- `Grid::winning(player)`: the three rows, the three columns and the two
diagonals, exactly as enumerated by the C++ loops. -/
def Grid.winning (g : Grid) (player : Char) : Bool :=
  ((g.get 0 == player) && (g.get 1 == player) && (g.get 2 == player)) ||
  ((g.get 3 == player) && (g.get 4 == player) && (g.get 5 == player)) ||
  ((g.get 6 == player) && (g.get 7 == player) && (g.get 8 == player)) ||
  ((g.get 0 == player) && (g.get 3 == player) && (g.get 6 == player)) ||
  ((g.get 1 == player) && (g.get 4 == player) && (g.get 7 == player)) ||
  ((g.get 2 == player) && (g.get 5 == player) && (g.get 8 == player)) ||
  ((g.get 0 == player) && (g.get 4 == player) && (g.get 8 == player)) ||
  ((g.get 2 == player) && (g.get 4 == player) && (g.get 6 == player))

/-- A node of the game tree (`AI::Move<Grid>`): resulting grid, score,
the list of next moves, the index of the best move, and the spot index. -/
inductive Move : Type where
  | mk (grid : Grid) (score : Int) (next : List Move) (bestMove : Int)
      (spotIndex : Int)

/-- Field `Move::grid`. -/
def Move.grid : Move → Grid
  | .mk g _ _ _ _ => g

/-- `Move::getScore()`. -/
def Move.score : Move → Int
  | .mk _ s _ _ _ => s

/-- Field `Move::next` (the child list). -/
def Move.next : Move → List Move
  | .mk _ _ n _ _ => n

/-- Field `Move::bestMove`. -/
def Move.bestMove : Move → Int
  | .mk _ _ _ b _ => b

/-- Field `Move::spotIndex`. -/
def Move.spotIndex : Move → Int
  | .mk _ _ _ _ i => i

/-- `Move::setSpotIndex(i)`. -/
def Move.setSpotIndex : Move → Int → Move
  | .mk g s n b _, i => .mk g s n b i

/-- The grid made of nine blanks, built by the default `Grid` constructor. -/
def emptyGrid : Grid := ⟨List.replicate 9 ' ', by simp⟩

instance : Inhabited Move := ⟨.mk emptyGrid 0 [] (-1) (-1)⟩

/-- The single shared `static Move dummy` returned by `Move::at` on a bad
index: a default-constructed move (blank grid, score 0, no children,
`bestMove = -1`, `spotIndex = -1`). -/
def Move.dummy : Move := .mk emptyGrid 0 [] (-1) (-1)

/-- `Move::at(i)`: the i-th child when `0 <= i < next->size()`, otherwise
the shared static dummy move. -/
def Move.at (m : Move) (i : Int) : Move :=
  if 0 ≤ i ∧ i < (m.next.length : Int) then m.next.getD i.toNat Move.dummy
  else Move.dummy

/-- `INT_MIN` of the 32-bit `int` used by the C++ code. -/
def INT_MIN : Int := -2147483648

/-- `INT_MAX` of the 32-bit `int` used by the C++ code. -/
def INT_MAX : Int := 2147483647

/-- The maximizing selection loop of `minimax`: runs over the child scores
carrying `bestScore` and `bestMoveIdx`, updating both whenever
`childScore > bestScore`. -/
def bestScanMax : List Int → Int → Int → Int → Int × Int
  | [], best, bidx, _ => (best, bidx)
  | s :: rest, best, bidx, idx =>
    if best < s then bestScanMax rest s idx (idx + 1)
    else bestScanMax rest best bidx (idx + 1)

/-- The minimizing selection loop of `minimax`: updates whenever
`childScore < bestScore`. -/
def bestScanMin : List Int → Int → Int → Int → Int × Int
  | [], best, bidx, _ => (best, bidx)
  | s :: rest, best, bidx, idx =>
    if s < best then bestScanMin rest s idx (idx + 1)
    else bestScanMin rest best bidx (idx + 1)

/-- `AI::minimax`, with an explicit recursion-depth fuel (the C++ recursion
terminates because each ply fills one blank cell; the fuel makes that
termination argument explicit and is set to 9 in `minimax` below, enough
for any 3x3 grid). -/
def minimaxF : Nat → Grid → Char → Char → Char → Move
  | 0, grid, _, _, _ => .mk grid 0 [] (-1) (-1)
  | fuel + 1, grid, player, maximizer, minimizer =>
    if grid.winning maximizer then .mk grid 10 [] (-1) (-1)
    else if grid.winning minimizer then .mk grid (-10) [] (-1) (-1)
    else
      let empties := grid.emptyIndices
      if empties.isEmpty then .mk grid 0 [] (-1) (-1)
      else if player = maximizer then
        let children := empties.map (fun spot =>
          (minimaxF fuel (grid.set spot player) minimizer maximizer
            minimizer).setSpotIndex (spot : Int))
        let bs := bestScanMax (children.map Move.score) INT_MIN 0 0
        .mk grid bs.1 children bs.2 (-1)
      else
        let children := empties.map (fun spot =>
          (minimaxF fuel (grid.set spot player) maximizer maximizer
            minimizer).setSpotIndex (spot : Int))
        let bs := bestScanMin (children.map Move.score) INT_MAX 0 0
        .mk grid bs.1 children bs.2 (-1)

/-- `AI::minimax(grid, player, maximizer, minimizer)`. -/
def minimax (grid : Grid) (player maximizer minimizer : Char) : Move :=
  minimaxF 9 grid player maximizer minimizer

/-- The child loop of `alpha_beta_pruning_all_branches`: iterates over the
empty spots carrying `alpha`, `beta`, `bestScore`, `bestMoveIdx`, the loop
counter `idx`, the `pruned` flag and the accumulated child list.  Once
`pruned` is set, the remaining spots receive dummy child nodes scored with
the current `alpha` (maximizer ply) or `beta` (minimizer ply).  The
recursive call of the surrounding function is abstracted as `rec`. -/
def abLoop (rec : Grid → Char → Int → Int → Move) (grid : Grid)
    (player maximizer minimizer : Char) :
    List Nat → Int → Int → Int → Int → Int → Bool → List Move →
    Int × Int × List Move
  | [], _, _, bestScore, bestMoveIdx, _, _, children =>
    (bestScore, bestMoveIdx, children)
  | spot :: rest, alpha, beta, bestScore, bestMoveIdx, idx, pruned,
      children =>
    let newGrid := grid.set spot player
    if pruned then
      let prunedScore := if player = maximizer then alpha else beta
      let child := (Move.mk newGrid prunedScore [] (-1)
        (-1)).setSpotIndex (spot : Int)
      abLoop rec grid player maximizer minimizer rest alpha beta bestScore
        bestMoveIdx (idx + 1) true (children ++ [child])
    else if player = maximizer then
      let child := rec newGrid minimizer alpha beta
      let childScore := child.score
      let bestScore2 := if bestScore < childScore then childScore
        else bestScore
      let bestMoveIdx2 := if bestScore < childScore then idx
        else bestMoveIdx
      let alpha2 := max alpha bestScore2
      let pruned2 := beta ≤ alpha2
      abLoop rec grid player maximizer minimizer rest alpha2 beta bestScore2
        bestMoveIdx2 (idx + 1) pruned2
        (children ++ [child.setSpotIndex (spot : Int)])
    else
      let child := rec newGrid maximizer alpha beta
      let childScore := child.score
      let bestScore2 := if childScore < bestScore then childScore
        else bestScore
      let bestMoveIdx2 := if childScore < bestScore then idx
        else bestMoveIdx
      let beta2 := min beta bestScore2
      let pruned2 := beta2 ≤ alpha
      abLoop rec grid player maximizer minimizer rest alpha beta2 bestScore2
        bestMoveIdx2 (idx + 1) pruned2
        (children ++ [child.setSpotIndex (spot : Int)])

/-- `AI::alpha_beta_pruning_all_branches`, with the same explicit fuel as
`minimaxF`. -/
def abF : Nat → Grid → Char → Char → Char → Int → Int → Move
  | 0, grid, _, _, _, _, _ => .mk grid 0 [] (-1) (-1)
  | fuel + 1, grid, player, maximizer, minimizer, alpha, beta =>
    if grid.winning maximizer then .mk grid 10 [] (-1) (-1)
    else if grid.winning minimizer then .mk grid (-10) [] (-1) (-1)
    else
      let empties := grid.emptyIndices
      if empties.isEmpty then .mk grid 0 [] (-1) (-1)
      else
        let bestScore0 : Int := if player = maximizer then INT_MIN
          else INT_MAX
        let r := abLoop (fun g p a b => abF fuel g p maximizer minimizer a b)
          grid player maximizer minimizer empties alpha beta bestScore0 0 0
          false []
        .mk grid r.1 r.2.2 r.2.1 (-1)

/-- `AI::alpha_beta_pruning_all_branches(grid, player, maximizer,
minimizer, alpha, beta)`. -/
def alpha_beta_pruning_all_branches (grid : Grid)
    (player maximizer minimizer : Char) (alpha beta : Int) : Move :=
  abF 9 grid player maximizer minimizer alpha beta

end TTT

namespace TTT

@[simp] theorem Move.score_mk (g : Grid) (s : Int) (n : List Move)
    (b i : Int) : (Move.mk g s n b i).score = s := rfl

@[simp] theorem Move.next_mk (g : Grid) (s : Int) (n : List Move)
    (b i : Int) : (Move.mk g s n b i).next = n := rfl

@[simp] theorem Move.grid_mk (g : Grid) (s : Int) (n : List Move)
    (b i : Int) : (Move.mk g s n b i).grid = g := rfl

@[simp] theorem Move.bestMove_mk (g : Grid) (s : Int) (n : List Move)
    (b i : Int) : (Move.mk g s n b i).bestMove = b := rfl

@[simp] theorem Move.score_setSpotIndex (m : Move) (i : Int) :
    (m.setSpotIndex i).score = m.score := by
  cases m; rfl

@[simp] theorem Move.next_setSpotIndex (m : Move) (i : Int) :
    (m.setSpotIndex i).next = m.next := by
  cases m; rfl

@[simp] theorem Move.grid_setSpotIndex (m : Move) (i : Int) :
    (m.setSpotIndex i).grid = m.grid := by
  cases m; rfl

theorem Grid.get_set_self (g : Grid) (i : Nat) (c : Char) (h : i < 9) :
    (g.set i c).get i = c := by
  have hl : i < g.val.length := by rw [g.property]; exact h
  simp [Grid.get, Grid.set, List.getD_eq_getD_get?, List.get?_eq_getElem?,
    List.getElem?_set_self hl]

theorem Grid.get_set_ne (g : Grid) (i j : Nat) (c : Char) (h : i ≠ j) :
    (g.set i c).get j = g.get j := by
  simp [Grid.get, Grid.set, List.getD_eq_getD_get?, List.get?_eq_getElem?,
    List.getElem?_set_ne h]

theorem Grid.mem_emptyIndices (g : Grid) (i : Nat) :
    i ∈ g.emptyIndices ↔ i < 9 ∧ g.get i = ' ' := by
  simp [Grid.emptyIndices, List.mem_filter, List.mem_range]

theorem Grid.emptyIndices_length_le (g : Grid) :
    g.emptyIndices.length ≤ 9 := by
  calc g.emptyIndices.length ≤ (List.range 9).length :=
        List.length_filter_le _ _
    _ = 9 := List.length_range 9

/-- Auxiliary counting lemma: turning the predicate false at one element of
a duplicate-free list shortens the filtered list by exactly one. -/
theorem filter_length_update (l : List Nat) (p pn : Nat → Bool)
    (spot : Nat) (hnd : l.Nodup) (hm : spot ∈ l) (hp : p spot = true)
    (hpn : pn spot = false) (hagree : ∀ j ∈ l, j ≠ spot → pn j = p j) :
    (l.filter pn).length + 1 = (l.filter p).length := by
  induction l with
  | nil => cases hm
  | cons a t ih =>
    by_cases has : a = spot
    · subst has
      have hnt : a ∉ t := (List.nodup_cons.mp hnd).1
      have ht : t.filter pn = t.filter p := by
        apply List.filter_congr
        intro j hj
        exact hagree j (List.mem_cons_of_mem _ hj) (fun h => hnt (h ▸ hj))
      simp [List.filter_cons, hp, hpn, ht]
    · have hmt : spot ∈ t := by
        rcases List.mem_cons.mp hm with h | h
        · exact absurd h.symm has
        · exact h
      have hagree' : ∀ j ∈ t, j ≠ spot → pn j = p j :=
        fun j hj => hagree j (List.mem_cons_of_mem _ hj)
      have ih' := ih (List.nodup_cons.mp hnd).2 hmt hagree'
      have ha : pn a = p a := hagree a (List.mem_cons_self _ _) has
      by_cases hpa : p a = true
      · simp [List.filter_cons, hpa, ha ▸ hpa]
        omega
      · have hpa' : p a = false := by simp at hpa; exact hpa
        simp [List.filter_cons, hpa', ha ▸ hpa', ih']

/-- Placing a real mark on an empty cell removes exactly that cell from the
empty-index list. -/
theorem Grid.emptyIndices_set_length (g : Grid) (spot : Nat) (c : Char)
    (hm : spot ∈ g.emptyIndices) (hc : c ≠ ' ') :
    ((g.set spot c).emptyIndices).length + 1 = (g.emptyIndices).length := by
  obtain ⟨hlt, hsp⟩ := (Grid.mem_emptyIndices g spot).mp hm
  apply filter_length_update (List.range 9) _ _ spot (List.nodup_range 9)
    (List.mem_range.mpr hlt)
  · simp [hsp]
  · simp [Grid.get_set_self g spot c hlt, hc]
  · intro j _ hj
    simp [Grid.get_set_ne g spot j c (fun h => hj h.symm)]

end TTT

namespace TTT

theorem minimaxF_win_max (fuel : Nat) (g : Grid) (p mx mn : Char)
    (h : g.winning mx = true) :
    minimaxF (fuel + 1) g p mx mn = .mk g 10 [] (-1) (-1) := by
  simp [minimaxF, h]

theorem minimaxF_win_min (fuel : Nat) (g : Grid) (p mx mn : Char)
    (h1 : g.winning mx = false) (h2 : g.winning mn = true) :
    minimaxF (fuel + 1) g p mx mn = .mk g (-10) [] (-1) (-1) := by
  simp [minimaxF, h1, h2]

theorem minimaxF_draw (fuel : Nat) (g : Grid) (p mx mn : Char)
    (h1 : g.winning mx = false) (h2 : g.winning mn = false)
    (h3 : g.emptyIndices = []) :
    minimaxF (fuel + 1) g p mx mn = .mk g 0 [] (-1) (-1) := by
  simp [minimaxF, h1, h2, h3]

theorem abF_win_max (fuel : Nat) (g : Grid) (p mx mn : Char) (α β : Int)
    (h : g.winning mx = true) :
    abF (fuel + 1) g p mx mn α β = .mk g 10 [] (-1) (-1) := by
  simp [abF, h]

theorem abF_win_min (fuel : Nat) (g : Grid) (p mx mn : Char) (α β : Int)
    (h1 : g.winning mx = false) (h2 : g.winning mn = true) :
    abF (fuel + 1) g p mx mn α β = .mk g (-10) [] (-1) (-1) := by
  simp [abF, h1, h2]

theorem abF_draw (fuel : Nat) (g : Grid) (p mx mn : Char) (α β : Int)
    (h1 : g.winning mx = false) (h2 : g.winning mn = false)
    (h3 : g.emptyIndices = []) :
    abF (fuel + 1) g p mx mn α β = .mk g 0 [] (-1) (-1) := by
  simp [abF, h1, h2, h3]

/-- C4: terminal test of the game-tree search.  If the maximizer has a
winning configuration, both `minimax` and `alpha_beta_pruning_all_branches`
return a childless node of score +10; otherwise, if the minimizer has one,
a childless node of score -10; otherwise, if no empty cell remains, a
childless node of score 0. -/
theorem minimax_terminal_utilities (g : Grid) (p mx mn : Char)
    (α β : Int) :
    (g.winning mx = true →
      minimax g p mx mn = Move.mk g 10 [] (-1) (-1) ∧
      alpha_beta_pruning_all_branches g p mx mn α β =
        Move.mk g 10 [] (-1) (-1)) ∧
    (g.winning mx = false → g.winning mn = true →
      minimax g p mx mn = Move.mk g (-10) [] (-1) (-1) ∧
      alpha_beta_pruning_all_branches g p mx mn α β =
        Move.mk g (-10) [] (-1) (-1)) ∧
    (g.winning mx = false → g.winning mn = false → g.emptyIndices = [] →
      minimax g p mx mn = Move.mk g 0 [] (-1) (-1) ∧
      alpha_beta_pruning_all_branches g p mx mn α β =
        Move.mk g 0 [] (-1) (-1)) := by
  refine ⟨fun h => ⟨?_, ?_⟩, fun h1 h2 => ⟨?_, ?_⟩,
    fun h1 h2 h3 => ⟨?_, ?_⟩⟩
  · exact minimaxF_win_max 8 g p mx mn h
  · exact abF_win_max 8 g p mx mn α β h
  · exact minimaxF_win_min 8 g p mx mn h1 h2
  · exact abF_win_min 8 g p mx mn α β h1 h2
  · exact minimaxF_draw 8 g p mx mn h1 h2 h3
  · exact abF_draw 8 g p mx mn α β h1 h2 h3

/-- A board on which the maximizer has the top row. -/
def gX : Grid := ⟨['x', 'x', 'x', ' ', ' ', ' ', ' ', ' ', ' '], rfl⟩

/-- Witness for C4: on `gX` the maximizer has won, and `minimax` returns
the childless +10 node. -/
theorem minimax_terminal_utilities_witness :
    Grid.winning gX 'x' = true ∧
    minimax gX 'o' 'x' 'o' = Move.mk gX 10 [] (-1) (-1) :=
  ⟨by decide, ((minimax_terminal_utilities gX 'o' 'x' 'o' 0 1).1
    (by decide)).1⟩

/-- A full board on which BOTH players have a completed line: the
maximizer owns the top row and the minimizer the middle row. -/
def gBothWin : Grid :=
  ⟨['x', 'x', 'x', 'o', 'o', 'o', 'x', 'o', 'x'], rfl⟩

/-- C10 counterexample: a completely full board on which the minimizer
has a winning line, yet neither search returns -10 (the maximizer also has
a line, and the maximizer's win test runs first, so both return +10). -/
theorem full_board_double_win_cex :
    Grid.winning gBothWin 'o' = true ∧ gBothWin.emptyIndices = [] ∧
    (minimax gBothWin 'x' 'x' 'o').score ≠ -10 ∧
    (alpha_beta_pruning_all_branches gBothWin 'x' 'x' 'o' INT_MIN
      INT_MAX).score ≠ -10 := by
  refine ⟨by decide, by decide, ?_, ?_⟩
  · rw [(minimax_terminal_utilities gBothWin 'x' 'x' 'o' INT_MIN
      INT_MAX).1 (by decide) |>.1]
    decide
  · rw [(minimax_terminal_utilities gBothWin 'x' 'x' 'o' INT_MIN
      INT_MAX).1 (by decide) |>.2]
    decide

/-- C10 amended: on a completely full board, a winning line still takes
priority over the draw test: if the maximizer has a line both searches
return +10, and if the minimizer has a line while the maximizer does not,
both return -10. -/
theorem win_tests_precede_draw_test (g : Grid) (p mx mn : Char)
    (α β : Int) :
    (g.emptyIndices = [] → g.winning mx = true →
      (minimax g p mx mn).score = 10 ∧
      (alpha_beta_pruning_all_branches g p mx mn α β).score = 10) ∧
    (g.emptyIndices = [] → g.winning mx = false → g.winning mn = true →
      (minimax g p mx mn).score = -10 ∧
      (alpha_beta_pruning_all_branches g p mx mn α β).score = -10) := by
  constructor
  · intro _ h
    obtain ⟨h1, h2⟩ := (minimax_terminal_utilities g p mx mn α β).1 h
    rw [h1, h2]
    exact ⟨rfl, rfl⟩
  · intro _ h1 h2
    obtain ⟨h3, h4⟩ :=
      (minimax_terminal_utilities g p mx mn α β).2.1 h1 h2
    rw [h3, h4]
    exact ⟨rfl, rfl⟩

/-- A full board on which only the minimizer ('o') has a line. -/
def gOWin : Grid :=
  ⟨['o', 'o', 'o', 'x', 'x', 'o', 'x', 'o', 'x'], rfl⟩

/-- Witness for the amended C10: on the full board `gOWin` the minimizer
alone has a line and both searches score it -10. -/
theorem win_tests_precede_draw_test_witness :
    (gOWin.emptyIndices = [] ∧ Grid.winning gOWin 'x' = false ∧
      Grid.winning gOWin 'o' = true) ∧
    (minimax gOWin 'x' 'x' 'o').score = -10 ∧
    (alpha_beta_pruning_all_branches gOWin 'x' 'x' 'o' INT_MIN
      INT_MAX).score = -10 :=
  ⟨⟨by decide, by decide, by decide⟩,
    (win_tests_precede_draw_test gOWin 'x' 'x' 'o' INT_MIN INT_MAX).2
      (by decide) (by decide) (by decide)⟩

/-- C8: `Move::at(i)` returns the i-th child for an in-range index and the
one shared default-constructed dummy move (blank grid, score 0, no
children, bestMove -1) for every out-of-range index on every node. -/
theorem move_at_spec (m : Move) (i : Int) :
    (0 ≤ i → i < (m.next.length : Int) →
      Move.at m i = m.next.getD i.toNat Move.dummy) ∧
    (¬ (0 ≤ i ∧ i < (m.next.length : Int)) → Move.at m i = Move.dummy) := by
  constructor
  · intro h1 h2
    simp [Move.at, h1, h2]
  · intro h
    simp only [Move.at, if_neg h]

/-- A sample node with exactly two children. -/
def mTwoKids : Move := .mk emptyGrid 5 [Move.dummy, Move.dummy] 0 (-1)

/-- Witness for C8: index 7 is out of range on a two-child node and the
access yields the shared dummy. -/
theorem move_at_spec_witness :
    ¬ ((0 : Int) ≤ 7 ∧ (7 : Int) < (mTwoKids.next.length : Int)) ∧
    Move.at mTwoKids 7 = Move.dummy :=
  ⟨by decide, (move_at_spec mTwoKids 7).2 (by decide)⟩

end TTT

namespace TTT

/-- Running maximum, the value computed by the maximizing selection loop. -/
def foldMax (b : Int) (l : List Int) : Int := l.foldl max b

/-- Running minimum, the value computed by the minimizing selection loop. -/
def foldMin (b : Int) (l : List Int) : Int := l.foldl min b

theorem foldMax_cons (b s : Int) (l : List Int) :
    foldMax b (s :: l) = foldMax (max b s) l := rfl

theorem foldMin_cons (b s : Int) (l : List Int) :
    foldMin b (s :: l) = foldMin (min b s) l := rfl

theorem le_foldMax_self (b : Int) (l : List Int) : b ≤ foldMax b l := by
  induction l generalizing b with
  | nil => exact le_refl b
  | cons s rest ih =>
    exact le_trans (le_max_left b s) (ih (max b s))

theorem foldMin_le_self (b : Int) (l : List Int) : foldMin b l ≤ b := by
  induction l generalizing b with
  | nil => exact le_refl b
  | cons s rest ih =>
    exact le_trans (ih (min b s)) (min_le_left b s)

theorem le_foldMax_of_mem {x : Int} {l : List Int} (b : Int) (h : x ∈ l) :
    x ≤ foldMax b l := by
  induction l generalizing b with
  | nil => cases h
  | cons s rest ih =>
    rcases List.mem_cons.mp h with rfl | hm
    · exact le_trans (le_max_right b x) (le_foldMax_self _ _)
    · exact ih _ hm

theorem foldMin_le_of_mem {x : Int} {l : List Int} (b : Int) (h : x ∈ l) :
    foldMin b l ≤ x := by
  induction l generalizing b with
  | nil => cases h
  | cons s rest ih =>
    rcases List.mem_cons.mp h with rfl | hm
    · exact le_trans (foldMin_le_self (min b x) rest) (min_le_right b x)
    · exact ih _ hm

theorem foldMax_le_iff (b c : Int) (l : List Int) :
    foldMax b l ≤ c ↔ b ≤ c ∧ ∀ x ∈ l, x ≤ c := by
  induction l generalizing b with
  | nil => simp [foldMax]
  | cons s rest ih =>
    rw [foldMax_cons, ih]
    constructor
    · rintro ⟨h1, h2⟩
      exact ⟨le_trans (le_max_left b s) h1,
        fun x hx => by
          rcases List.mem_cons.mp hx with rfl | hm
          · exact le_trans (le_max_right b x) h1
          · exact h2 x hm⟩
    · rintro ⟨h1, h2⟩
      exact ⟨max_le h1 (h2 s (List.mem_cons_self _ _)),
        fun x hx => h2 x (List.mem_cons_of_mem _ hx)⟩

theorem le_foldMin_iff (b c : Int) (l : List Int) :
    c ≤ foldMin b l ↔ c ≤ b ∧ ∀ x ∈ l, c ≤ x := by
  induction l generalizing b with
  | nil => simp [foldMin]
  | cons s rest ih =>
    rw [foldMin_cons, ih]
    constructor
    · rintro ⟨h1, h2⟩
      exact ⟨le_trans h1 (min_le_left b s),
        fun x hx => by
          rcases List.mem_cons.mp hx with rfl | hm
          · exact le_trans h1 (min_le_right b x)
          · exact h2 x hm⟩
    · rintro ⟨h1, h2⟩
      exact ⟨le_min h1 (h2 s (List.mem_cons_self _ _)),
        fun x hx => h2 x (List.mem_cons_of_mem _ hx)⟩

theorem foldMax_eq_seed_or_mem (b : Int) (l : List Int) :
    foldMax b l = b ∨ ∃ x ∈ l, foldMax b l = x := by
  induction l generalizing b with
  | nil => exact Or.inl rfl
  | cons s rest ih =>
    rw [foldMax_cons]
    rcases ih (max b s) with h | ⟨x, hx, h⟩
    · rcases le_or_lt s b with hsb | hbs
      · exact Or.inl (h.trans (max_eq_left hsb))
      · exact Or.inr ⟨s, List.mem_cons_self _ _,
          h.trans (max_eq_right (le_of_lt hbs))⟩
    · exact Or.inr ⟨x, List.mem_cons_of_mem _ hx, h⟩

theorem foldMin_eq_seed_or_mem (b : Int) (l : List Int) :
    foldMin b l = b ∨ ∃ x ∈ l, foldMin b l = x := by
  induction l generalizing b with
  | nil => exact Or.inl rfl
  | cons s rest ih =>
    rw [foldMin_cons]
    rcases ih (min b s) with h | ⟨x, hx, h⟩
    · rcases le_or_lt b s with hbs | hsb
      · exact Or.inl (h.trans (min_eq_left hbs))
      · exact Or.inr ⟨s, List.mem_cons_self _ _,
          h.trans (min_eq_right (le_of_lt hsb))⟩
    · exact Or.inr ⟨x, List.mem_cons_of_mem _ hx, h⟩

theorem foldMax_absorb (s t : Int) (l : List Int) :
    foldMax (max s t) l = max s (foldMax t l) := by
  induction l generalizing t with
  | nil => rfl
  | cons a rest ih =>
    rw [foldMax_cons, max_assoc, ih (max t a), foldMax_cons]

theorem foldMin_absorb (s t : Int) (l : List Int) :
    foldMin (min s t) l = min s (foldMin t l) := by
  induction l generalizing t with
  | nil => rfl
  | cons a rest ih =>
    rw [foldMin_cons, min_assoc, ih (min t a), foldMin_cons]

end TTT

namespace TTT

/-- Full specification of the maximizing selection loop: its first
component is the running maximum, and when some element strictly beats
the seed, its second component is the position of the first element
attaining the maximum. -/
theorem bestScanMax_spec (l : List Int) : ∀ (b bidx idx : Int),
    (bestScanMax l b bidx idx).1 = foldMax b l ∧
    (foldMax b l = b → bestScanMax l b bidx idx = (b, bidx)) ∧
    (b < foldMax b l → ∃ k : Nat, k < l.length ∧
      (bestScanMax l b bidx idx).2 = idx + (k : Int) ∧
      l.getD k 0 = foldMax b l ∧
      ∀ j : Nat, j < k → l.getD j 0 ≠ foldMax b l) := by
  induction l with
  | nil =>
    intro b bidx idx
    exact ⟨rfl, fun _ => rfl, fun h => absurd h (lt_irrefl b)⟩
  | cons s rest ih =>
    intro b bidx idx
    by_cases hbs : b < s
    · have hstep : bestScanMax (s :: rest) b bidx idx =
          bestScanMax rest s idx (idx + 1) := by
        simp [bestScanMax, hbs]
      have hM : foldMax b (s :: rest) = foldMax s rest := by
        rw [foldMax_cons, max_eq_right (le_of_lt hbs)]
      obtain ⟨ih1, ih2, ih3⟩ := ih s idx (idx + 1)
      refine ⟨by rw [hstep, ih1, hM], ?_, ?_⟩
      · intro heq
        exfalso
        have := le_foldMax_self s rest
        rw [hM] at heq
        omega
      · intro _
        rw [hstep, hM]
        rcases eq_or_lt_of_le (le_foldMax_self s rest) with heq | hlt
        · refine ⟨0, by simp, ?_, ?_, ?_⟩
          · rw [ih2 heq.symm]
            simp
          · simpa using heq
          · intro j hj
            omega
        · obtain ⟨k, hk, hidx, hget, hpre⟩ := ih3 hlt
          refine ⟨k + 1, by simpa using hk, ?_, ?_, ?_⟩
          · rw [hidx]
            push_cast
            ring
          · simpa using hget
          · intro j hj
            cases j with
            | zero =>
              simp only [List.getD_cons_zero]
              omega
            | succ j' =>
              simp only [List.getD_cons_succ]
              exact hpre j' (by omega)
    · have hsb : s ≤ b := le_of_not_lt hbs
      have hstep : bestScanMax (s :: rest) b bidx idx =
          bestScanMax rest b bidx (idx + 1) := by
        simp [bestScanMax, hbs]
      have hM : foldMax b (s :: rest) = foldMax b rest := by
        rw [foldMax_cons, max_eq_left hsb]
      obtain ⟨ih1, ih2, ih3⟩ := ih b bidx (idx + 1)
      refine ⟨by rw [hstep, ih1, hM], ?_, ?_⟩
      · intro heq
        rw [hstep, ih2 (by rw [← hM]; exact heq)]
      · intro hlt
        rw [hM] at hlt
        obtain ⟨k, hk, hidx, hget, hpre⟩ := ih3 hlt
        rw [hstep, hM]
        refine ⟨k + 1, by simpa using hk, ?_, ?_, ?_⟩
        · rw [hidx]
          push_cast
          ring
        · simpa using hget
        · intro j hj
          cases j with
          | zero =>
            simp only [List.getD_cons_zero]
            omega
          | succ j' =>
            simp only [List.getD_cons_succ]
            exact hpre j' (by omega)

/-- Full specification of the minimizing selection loop, dual to
`bestScanMax_spec`. -/
theorem bestScanMin_spec (l : List Int) : ∀ (b bidx idx : Int),
    (bestScanMin l b bidx idx).1 = foldMin b l ∧
    (foldMin b l = b → bestScanMin l b bidx idx = (b, bidx)) ∧
    (foldMin b l < b → ∃ k : Nat, k < l.length ∧
      (bestScanMin l b bidx idx).2 = idx + (k : Int) ∧
      l.getD k 0 = foldMin b l ∧
      ∀ j : Nat, j < k → l.getD j 0 ≠ foldMin b l) := by
  induction l with
  | nil =>
    intro b bidx idx
    exact ⟨rfl, fun _ => rfl, fun h => absurd h (lt_irrefl b)⟩
  | cons s rest ih =>
    intro b bidx idx
    by_cases hbs : s < b
    · have hstep : bestScanMin (s :: rest) b bidx idx =
          bestScanMin rest s idx (idx + 1) := by
        simp [bestScanMin, hbs]
      have hM : foldMin b (s :: rest) = foldMin s rest := by
        rw [foldMin_cons, min_eq_right (le_of_lt hbs)]
      obtain ⟨ih1, ih2, ih3⟩ := ih s idx (idx + 1)
      refine ⟨by rw [hstep, ih1, hM], ?_, ?_⟩
      · intro heq
        exfalso
        have := foldMin_le_self s rest
        rw [hM] at heq
        omega
      · intro _
        rw [hstep, hM]
        rcases eq_or_lt_of_le (foldMin_le_self s rest) with heq | hlt
        · refine ⟨0, by simp, ?_, ?_, ?_⟩
          · rw [ih2 heq]
            simp
          · simpa using heq.symm
          · intro j hj
            omega
        · obtain ⟨k, hk, hidx, hget, hpre⟩ := ih3 hlt
          refine ⟨k + 1, by simpa using hk, ?_, ?_, ?_⟩
          · rw [hidx]
            push_cast
            ring
          · simpa using hget
          · intro j hj
            cases j with
            | zero =>
              simp only [List.getD_cons_zero]
              omega
            | succ j' =>
              simp only [List.getD_cons_succ]
              exact hpre j' (by omega)
    · have hsb : b ≤ s := le_of_not_lt hbs
      have hstep : bestScanMin (s :: rest) b bidx idx =
          bestScanMin rest b bidx (idx + 1) := by
        simp [bestScanMin, hbs]
      have hM : foldMin b (s :: rest) = foldMin b rest := by
        rw [foldMin_cons, min_eq_left hsb]
      obtain ⟨ih1, ih2, ih3⟩ := ih b bidx (idx + 1)
      refine ⟨by rw [hstep, ih1, hM], ?_, ?_⟩
      · intro heq
        rw [hstep, ih2 (by rw [← hM]; exact heq)]
      · intro hlt
        rw [hM] at hlt
        obtain ⟨k, hk, hidx, hget, hpre⟩ := ih3 hlt
        rw [hstep, hM]
        refine ⟨k + 1, by simpa using hk, ?_, ?_, ?_⟩
        · rw [hidx]
          push_cast
          ring
        · simpa using hget
        · intro j hj
          cases j with
          | zero =>
            simp only [List.getD_cons_zero]
            omega
          | succ j' =>
            simp only [List.getD_cons_succ]
            exact hpre j' (by omega)

end TTT

namespace TTT

theorem isEmpty_false_of_ne_nil {α : Type} {l : List α} (h : l ≠ []) :
    l.isEmpty = false := by
  cases l with
  | nil => exact absurd rfl h
  | cons a t => rfl

theorem map_score_children (g : Grid) (p q mx mn : Char) (fuel : Nat) :
    ((g.emptyIndices.map (fun spot =>
      (minimaxF fuel (g.set spot p) q mx mn).setSpotIndex
        (spot : Int))).map Move.score) =
    g.emptyIndices.map (fun spot =>
      (minimaxF fuel (g.set spot p) q mx mn).score) := by
  rw [List.map_map]
  simp [Function.comp]

theorem minimaxF_max_node (fuel : Nat) (g : Grid) (p mx mn : Char)
    (h1 : g.winning mx = false) (h2 : g.winning mn = false)
    (h3 : g.emptyIndices ≠ []) (hp : p = mx) :
    minimaxF (fuel + 1) g p mx mn =
      Move.mk g
        (bestScanMax ((g.emptyIndices.map (fun spot =>
          (minimaxF fuel (g.set spot p) mn mx mn).setSpotIndex
            (spot : Int))).map Move.score) INT_MIN 0 0).1
        (g.emptyIndices.map (fun spot =>
          (minimaxF fuel (g.set spot p) mn mx mn).setSpotIndex
            (spot : Int)))
        (bestScanMax ((g.emptyIndices.map (fun spot =>
          (minimaxF fuel (g.set spot p) mn mx mn).setSpotIndex
            (spot : Int))).map Move.score) INT_MIN 0 0).2
        (-1) := by
  subst hp
  simp [minimaxF, h1, h2, isEmpty_false_of_ne_nil h3]

theorem minimaxF_min_node (fuel : Nat) (g : Grid) (p mx mn : Char)
    (h1 : g.winning mx = false) (h2 : g.winning mn = false)
    (h3 : g.emptyIndices ≠ []) (hp : ¬ p = mx) :
    minimaxF (fuel + 1) g p mx mn =
      Move.mk g
        (bestScanMin ((g.emptyIndices.map (fun spot =>
          (minimaxF fuel (g.set spot p) mx mx mn).setSpotIndex
            (spot : Int))).map Move.score) INT_MAX 0 0).1
        (g.emptyIndices.map (fun spot =>
          (minimaxF fuel (g.set spot p) mx mx mn).setSpotIndex
            (spot : Int)))
        (bestScanMin ((g.emptyIndices.map (fun spot =>
          (minimaxF fuel (g.set spot p) mx mx mn).setSpotIndex
            (spot : Int))).map Move.score) INT_MAX 0 0).2
        (-1) := by
  simp [minimaxF, h1, h2, isEmpty_false_of_ne_nil h3, hp]

theorem minimaxF_score_bounds (fuel : Nat) :
    ∀ (g : Grid) (p mx mn : Char),
    -10 ≤ (minimaxF fuel g p mx mn).score ∧
    (minimaxF fuel g p mx mn).score ≤ 10 := by
  induction fuel with
  | zero =>
    intro g p mx mn
    simp [minimaxF]
  | succ fuel ih =>
    intro g p mx mn
    cases hw1 : g.winning mx with
    | true =>
      rw [minimaxF_win_max fuel g p mx mn hw1]
      simp
    | false =>
      cases hw2 : g.winning mn with
      | true =>
        rw [minimaxF_win_min fuel g p mx mn hw1 hw2]
        simp
      | false =>
        cases hE : g.emptyIndices with
        | nil =>
          rw [minimaxF_draw fuel g p mx mn hw1 hw2 hE]
          simp
        | cons e es =>
          have hne : g.emptyIndices ≠ [] := by rw [hE]; simp
          have hemem : e ∈ g.emptyIndices := by
            rw [hE]; exact List.mem_cons_self _ _
          by_cases hp : p = mx
          · rw [minimaxF_max_node fuel g p mx mn hw1 hw2 hne hp]
            simp only [Move.score_mk]
            rw [(bestScanMax_spec _ _ _ _).1, map_score_children]
            constructor
            · calc (-10 : Int) ≤ (minimaxF fuel (g.set e p) mn mx mn).score :=
                  (ih (g.set e p) mn mx mn).1
                _ ≤ _ := le_foldMax_of_mem _
                  (List.mem_map_of_mem
                    (fun spot => (minimaxF fuel (g.set spot p) mn mx mn).score)
                    hemem)
            · rw [foldMax_le_iff]
              refine ⟨by norm_num [INT_MIN], ?_⟩
              intro x hx
              obtain ⟨spot, _, rfl⟩ := List.mem_map.mp hx
              exact (ih (g.set spot p) mn mx mn).2
          · rw [minimaxF_min_node fuel g p mx mn hw1 hw2 hne hp]
            simp only [Move.score_mk]
            rw [(bestScanMin_spec _ _ _ _).1, map_score_children]
            constructor
            · rw [le_foldMin_iff]
              refine ⟨by norm_num [INT_MAX], ?_⟩
              intro x hx
              obtain ⟨spot, _, rfl⟩ := List.mem_map.mp hx
              exact (ih (g.set spot p) mx mx mn).1
            · calc foldMin INT_MAX
                    (g.emptyIndices.map (fun spot =>
                      (minimaxF fuel (g.set spot p) mx mx mn).score)) ≤
                  (minimaxF fuel (g.set e p) mx mx mn).score :=
                  foldMin_le_of_mem _ (List.mem_map_of_mem
                    (fun spot => (minimaxF fuel (g.set spot p) mx mx mn).score)
                    hemem)
                _ ≤ 10 := (ih (g.set e p) mx mx mn).2

end TTT

namespace TTT

theorem getD_map_gen {α β : Type} (f : α → β) (l : List α) (k : Nat)
    (d : β) (d2 : α) (h : k < l.length) :
    (l.map f).getD k d = f (l.getD k d2) := by
  rw [List.getD_eq_getElem _ _ (by simpa using h),
    List.getD_eq_getElem _ _ h, List.getElem_map]

theorem minimaxF_grid (fuel : Nat) (g : Grid) (p mx mn : Char) :
    (minimaxF fuel g p mx mn).grid = g := by
  cases fuel with
  | zero => rfl
  | succ fuel =>
    simp only [minimaxF]
    split
    · rfl
    · split
      · rfl
      · split
        · rfl
        · split <;> rfl

theorem minimaxF_max_structure (fuel : Nat) (g : Grid) (p mx mn : Char)
    (h1 : g.winning mx = false) (h2 : g.winning mn = false)
    (h3 : g.emptyIndices ≠ []) (hp : p = mx) :
    (minimaxF (fuel + 1) g p mx mn).next.length =
      g.emptyIndices.length ∧
    (∀ k : Nat, k < g.emptyIndices.length →
      ((minimaxF (fuel + 1) g p mx mn).next.getD k Move.dummy).grid =
        g.set (g.emptyIndices.getD k 0) p) ∧
    (∀ c ∈ (minimaxF (fuel + 1) g p mx mn).next,
      c.score ≤ (minimaxF (fuel + 1) g p mx mn).score) ∧
    (∃ k : Nat, k < (minimaxF (fuel + 1) g p mx mn).next.length ∧
      (minimaxF (fuel + 1) g p mx mn).bestMove = (k : Int) ∧
      ((minimaxF (fuel + 1) g p mx mn).next.getD k Move.dummy).score =
        (minimaxF (fuel + 1) g p mx mn).score ∧
      ∀ j : Nat, j < k →
        ((minimaxF (fuel + 1) g p mx mn).next.getD j Move.dummy).score ≠
          (minimaxF (fuel + 1) g p mx mn).score) := by
  rw [minimaxF_max_node fuel g p mx mn h1 h2 h3 hp]
  simp only [Move.next_mk, Move.score_mk, Move.bestMove_mk,
    map_score_children]
  obtain ⟨hs1, _, hs3⟩ := bestScanMax_spec
    (g.emptyIndices.map (fun spot =>
      (minimaxF fuel (g.set spot p) mn mx mn).score)) INT_MIN 0 0
  obtain ⟨e, es, hE⟩ : ∃ e es, g.emptyIndices = e :: es := by
    cases hEE : g.emptyIndices with
    | nil => exact absurd hEE h3
    | cons e es => exact ⟨e, es, rfl⟩
  have hemem : e ∈ g.emptyIndices := by
    rw [hE]; exact List.mem_cons_self _ _
  have hMgt : INT_MIN < foldMax INT_MIN (g.emptyIndices.map (fun spot =>
      (minimaxF fuel (g.set spot p) mn mx mn).score)) := by
    have hb := (minimaxF_score_bounds fuel (g.set e p) mn mx mn).1
    have hle : (minimaxF fuel (g.set e p) mn mx mn).score ≤
        foldMax INT_MIN (g.emptyIndices.map (fun spot =>
          (minimaxF fuel (g.set spot p) mn mx mn).score)) :=
      le_foldMax_of_mem INT_MIN (List.mem_map_of_mem
        (fun spot => (minimaxF fuel (g.set spot p) mn mx mn).score) hemem)
    have : (INT_MIN : Int) < -10 := by norm_num [INT_MIN]
    omega
  refine ⟨List.length_map _ _, ?_, ?_, ?_⟩
  · intro k hk
    rw [getD_map_gen _ _ k Move.dummy 0 hk]
    simp [Move.grid_setSpotIndex, minimaxF_grid]
  · intro c hc
    obtain ⟨spot, hspot, rfl⟩ := List.mem_map.mp hc
    rw [hs1]
    simp only [Move.score_setSpotIndex]
    exact le_foldMax_of_mem INT_MIN (List.mem_map_of_mem
      (fun spot => (minimaxF fuel (g.set spot p) mn mx mn).score) hspot)
  · obtain ⟨k, hk, hidx, hget, hpre⟩ := hs3 hMgt
    have hkE : k < g.emptyIndices.length := by simpa using hk
    refine ⟨k, by simpa using hkE, by rw [hidx]; simp, ?_, ?_⟩
    · rw [hs1, getD_map_gen _ _ k Move.dummy 0 hkE]
      simp only [Move.score_setSpotIndex]
      rw [← getD_map_gen (fun spot =>
        (minimaxF fuel (g.set spot p) mn mx mn).score) _ k 0 0 hkE]
      exact hget
    · intro j hj
      have hjE : j < g.emptyIndices.length := lt_trans hj hkE
      rw [hs1, getD_map_gen _ _ j Move.dummy 0 hjE]
      simp only [Move.score_setSpotIndex]
      rw [← getD_map_gen (fun spot =>
        (minimaxF fuel (g.set spot p) mn mx mn).score) _ j 0 0 hjE]
      exact hpre j hj

end TTT

namespace TTT

theorem minimaxF_min_structure (fuel : Nat) (g : Grid) (p mx mn : Char)
    (h1 : g.winning mx = false) (h2 : g.winning mn = false)
    (h3 : g.emptyIndices ≠ []) (hp : ¬ p = mx) :
    (minimaxF (fuel + 1) g p mx mn).next.length =
      g.emptyIndices.length ∧
    (∀ k : Nat, k < g.emptyIndices.length →
      ((minimaxF (fuel + 1) g p mx mn).next.getD k Move.dummy).grid =
        g.set (g.emptyIndices.getD k 0) p) ∧
    (∀ c ∈ (minimaxF (fuel + 1) g p mx mn).next,
      (minimaxF (fuel + 1) g p mx mn).score ≤ c.score) ∧
    (∃ k : Nat, k < (minimaxF (fuel + 1) g p mx mn).next.length ∧
      (minimaxF (fuel + 1) g p mx mn).bestMove = (k : Int) ∧
      ((minimaxF (fuel + 1) g p mx mn).next.getD k Move.dummy).score =
        (minimaxF (fuel + 1) g p mx mn).score ∧
      ∀ j : Nat, j < k →
        ((minimaxF (fuel + 1) g p mx mn).next.getD j Move.dummy).score ≠
          (minimaxF (fuel + 1) g p mx mn).score) := by
  rw [minimaxF_min_node fuel g p mx mn h1 h2 h3 hp]
  simp only [Move.next_mk, Move.score_mk, Move.bestMove_mk,
    map_score_children]
  obtain ⟨hs1, _, hs3⟩ := bestScanMin_spec
    (g.emptyIndices.map (fun spot =>
      (minimaxF fuel (g.set spot p) mx mx mn).score)) INT_MAX 0 0
  obtain ⟨e, es, hE⟩ : ∃ e es, g.emptyIndices = e :: es := by
    cases hEE : g.emptyIndices with
    | nil => exact absurd hEE h3
    | cons e es => exact ⟨e, es, rfl⟩
  have hemem : e ∈ g.emptyIndices := by
    rw [hE]; exact List.mem_cons_self _ _
  have hMlt : foldMin INT_MAX (g.emptyIndices.map (fun spot =>
      (minimaxF fuel (g.set spot p) mx mx mn).score)) < INT_MAX := by
    have hb := (minimaxF_score_bounds fuel (g.set e p) mx mx mn).2
    have hle : foldMin INT_MAX (g.emptyIndices.map (fun spot =>
        (minimaxF fuel (g.set spot p) mx mx mn).score)) ≤
        (minimaxF fuel (g.set e p) mx mx mn).score :=
      foldMin_le_of_mem INT_MAX (List.mem_map_of_mem
        (fun spot => (minimaxF fuel (g.set spot p) mx mx mn).score) hemem)
    have : (10 : Int) < INT_MAX := by norm_num [INT_MAX]
    omega
  refine ⟨List.length_map _ _, ?_, ?_, ?_⟩
  · intro k hk
    rw [getD_map_gen _ _ k Move.dummy 0 hk]
    simp [Move.grid_setSpotIndex, minimaxF_grid]
  · intro c hc
    obtain ⟨spot, hspot, rfl⟩ := List.mem_map.mp hc
    rw [hs1]
    simp only [Move.score_setSpotIndex]
    exact foldMin_le_of_mem INT_MAX (List.mem_map_of_mem
      (fun spot => (minimaxF fuel (g.set spot p) mx mx mn).score) hspot)
  · obtain ⟨k, hk, hidx, hget, hpre⟩ := hs3 hMlt
    have hkE : k < g.emptyIndices.length := by simpa using hk
    refine ⟨k, by simpa using hkE, by rw [hidx]; simp, ?_, ?_⟩
    · rw [hs1, getD_map_gen _ _ k Move.dummy 0 hkE]
      simp only [Move.score_setSpotIndex]
      rw [← getD_map_gen (fun spot =>
        (minimaxF fuel (g.set spot p) mx mx mn).score) _ k 0 0 hkE]
      exact hget
    · intro j hj
      have hjE : j < g.emptyIndices.length := lt_trans hj hkE
      rw [hs1, getD_map_gen _ _ j Move.dummy 0 hjE]
      simp only [Move.score_setSpotIndex]
      rw [← getD_map_gen (fun spot =>
        (minimaxF fuel (g.set spot p) mx mx mn).score) _ j 0 0 hjE]
      exact hpre j hj

/-- C5: at a non-terminal state the `minimax` node has exactly one child
per legal move, in the enumeration order of `emptyIndices` (the k-th child
carries the grid obtained by playing the k-th empty spot); its score is
the maximum of the children's scores when the player to move is the
maximizer and the minimum when the player is the minimizer; and its
`bestMove` is the index of the first child attaining that extremum. -/
theorem minimax_nonterminal_structure (g : Grid) (p mx mn : Char)
    (h1 : g.winning mx = false) (h2 : g.winning mn = false)
    (h3 : g.emptyIndices ≠ []) (hd : mx ≠ mn) :
    (minimax g p mx mn).next.length = g.emptyIndices.length ∧
    (∀ k : Nat, k < g.emptyIndices.length →
      ((minimax g p mx mn).next.getD k Move.dummy).grid =
        g.set (g.emptyIndices.getD k 0) p) ∧
    (p = mx →
      (∀ c ∈ (minimax g p mx mn).next,
        c.score ≤ (minimax g p mx mn).score) ∧
      (∃ k : Nat, k < (minimax g p mx mn).next.length ∧
        (minimax g p mx mn).bestMove = (k : Int) ∧
        ((minimax g p mx mn).next.getD k Move.dummy).score =
          (minimax g p mx mn).score ∧
        ∀ j : Nat, j < k →
          ((minimax g p mx mn).next.getD j Move.dummy).score ≠
            (minimax g p mx mn).score)) ∧
    (p = mn →
      (∀ c ∈ (minimax g p mx mn).next,
        (minimax g p mx mn).score ≤ c.score) ∧
      (∃ k : Nat, k < (minimax g p mx mn).next.length ∧
        (minimax g p mx mn).bestMove = (k : Int) ∧
        ((minimax g p mx mn).next.getD k Move.dummy).score =
          (minimax g p mx mn).score ∧
        ∀ j : Nat, j < k →
          ((minimax g p mx mn).next.getD j Move.dummy).score ≠
            (minimax g p mx mn).score)) := by
  have hmm : minimax g p mx mn = minimaxF (8 + 1) g p mx mn := rfl
  by_cases hp : p = mx
  · obtain ⟨ha, hb, hc, hdd⟩ :=
      minimaxF_max_structure 8 g p mx mn h1 h2 h3 hp
    rw [hmm]
    exact ⟨ha, hb, fun _ => ⟨hc, hdd⟩,
      fun hpmn => absurd (hp ▸ hpmn ▸ rfl) hd.symm⟩
  · obtain ⟨ha, hb, hc, hdd⟩ :=
      minimaxF_min_structure 8 g p mx mn h1 h2 h3 hp
    rw [hmm]
    exact ⟨ha, hb, fun hpmx => absurd hpmx hp, fun _ => ⟨hc, hdd⟩⟩

/-- A non-terminal board: no winner and three empty cells. -/
def gNT : Grid := ⟨['x', 'o', 'x', 'o', 'x', 'o', ' ', ' ', ' '], rfl⟩

/-- Witness for C5: on `gNT` with the maximizer to move the node has one
child per empty cell. -/
theorem minimax_nonterminal_structure_witness :
    (Grid.winning gNT 'x' = false ∧ Grid.winning gNT 'o' = false ∧
      gNT.emptyIndices ≠ [] ∧ ('x' : Char) ≠ 'o') ∧
    (minimax gNT 'x' 'x' 'o').next.length = gNT.emptyIndices.length :=
  ⟨⟨by decide, by decide, by decide, by decide⟩,
    (minimax_nonterminal_structure gNT 'x' 'x' 'o' (by decide) (by decide)
      (by decide) (by decide)).1⟩

end TTT

namespace TTT

/-- Shape invariant of a game tree: every node either has no children
(terminal or pruned placeholder) or exactly one child per legal move of
its grid. -/
inductive ShapeOK : Move → Prop where
  | mk (grid : Grid) (score : Int) (next : List Move)
      (bestMove spotIndex : Int) :
      (next = [] ∨ next.length = grid.emptyIndices.length) →
      (∀ c ∈ next, ShapeOK c) →
      ShapeOK (Move.mk grid score next bestMove spotIndex)

theorem ShapeOK.leaf (g : Grid) (s : Int) (b i : Int) :
    ShapeOK (Move.mk g s [] b i) :=
  ShapeOK.mk g s [] b i (Or.inl rfl) (by intro c hc; cases hc)

theorem ShapeOK.setSpotIndex {m : Move} (i : Int) (h : ShapeOK m) :
    ShapeOK (m.setSpotIndex i) := by
  cases h with
  | mk g s n b j hsh hall => exact ShapeOK.mk g s n b i hsh hall

theorem abLoop_length (rec : Grid → Char → Int → Int → Move) (g : Grid)
    (p mx mn : Char) :
    ∀ (spots : List Nat) (α β b bi idx : Int) (pr : Bool)
      (ch : List Move),
    (abLoop rec g p mx mn spots α β b bi idx pr ch).2.2.length =
      ch.length + spots.length := by
  intro spots
  induction spots with
  | nil =>
    intro α β b bi idx pr ch
    simp [abLoop]
  | cons s rest ih =>
    intro α β b bi idx pr ch
    simp only [abLoop]
    split_ifs with h1 h2 <;>
      rw [ih] <;> simp [List.length_append] <;> omega

theorem abLoop_pruned_run (rec : Grid → Char → Int → Int → Move)
    (g : Grid) (p mx mn : Char) :
    ∀ (spots : List Nat) (α β b bi idx : Int) (ch : List Move),
    abLoop rec g p mx mn spots α β b bi idx true ch =
      (b, bi, ch ++ spots.map (fun s =>
        (Move.mk (g.set s p) (if p = mx then α else β) [] (-1)
          (-1)).setSpotIndex (s : Int))) := by
  intro spots
  induction spots with
  | nil =>
    intro α β b bi idx ch
    simp [abLoop]
  | cons s rest ih =>
    intro α β b bi idx ch
    simp only [abLoop, if_pos]
    rw [ih]
    simp

theorem abLoop_members (rec : Grid → Char → Int → Int → Move) (g : Grid)
    (p mx mn : Char) (P : Move → Prop)
    (hrec : ∀ (s : Nat) (q : Char) (a b2 : Int),
      P ((rec (g.set s p) q a b2).setSpotIndex (s : Int)))
    (hdum : ∀ (s : Nat) (sc : Int),
      P ((Move.mk (g.set s p) sc [] (-1) (-1)).setSpotIndex (s : Int))) :
    ∀ (spots : List Nat) (α β b bi idx : Int) (pr : Bool)
      (ch : List Move),
    (∀ c ∈ ch, P c) →
    ∀ c ∈ (abLoop rec g p mx mn spots α β b bi idx pr ch).2.2, P c := by
  intro spots
  induction spots with
  | nil =>
    intro α β b bi idx pr ch hch
    simpa [abLoop] using hch
  | cons s rest ih =>
    intro α β b bi idx pr ch hch
    simp only [abLoop]
    split_ifs <;>
    · apply ih
      intro c hc
      rcases List.mem_append.mp hc with h | h
      · exact hch c h
      · rcases List.mem_singleton.mp h with rfl
        first
        | exact hdum s _
        | exact hrec s mn _ _
        | exact hrec s mx _ _

theorem abF_node (fuel : Nat) (g : Grid) (p mx mn : Char) (α β : Int)
    (h1 : g.winning mx = false) (h2 : g.winning mn = false)
    (h3 : g.emptyIndices ≠ []) :
    abF (fuel + 1) g p mx mn α β =
      Move.mk g
        (abLoop (fun g2 p2 a b => abF fuel g2 p2 mx mn a b) g p mx mn
          g.emptyIndices α β (if p = mx then INT_MIN else INT_MAX)
          0 0 false []).1
        (abLoop (fun g2 p2 a b => abF fuel g2 p2 mx mn a b) g p mx mn
          g.emptyIndices α β (if p = mx then INT_MIN else INT_MAX)
          0 0 false []).2.2
        (abLoop (fun g2 p2 a b => abF fuel g2 p2 mx mn a b) g p mx mn
          g.emptyIndices α β (if p = mx then INT_MIN else INT_MAX)
          0 0 false []).2.1
        (-1) := by
  simp [abF, h1, h2, isEmpty_false_of_ne_nil h3]

theorem abF_shapeOK (fuel : Nat) :
    ∀ (g : Grid) (p mx mn : Char) (α β : Int),
    ShapeOK (abF fuel g p mx mn α β) := by
  induction fuel with
  | zero =>
    intro g p mx mn α β
    exact ShapeOK.leaf g 0 (-1) (-1)
  | succ fuel ih =>
    intro g p mx mn α β
    cases hw1 : g.winning mx with
    | true =>
      rw [abF_win_max fuel g p mx mn α β hw1]
      exact ShapeOK.leaf g 10 (-1) (-1)
    | false =>
      cases hw2 : g.winning mn with
      | true =>
        rw [abF_win_min fuel g p mx mn α β hw1 hw2]
        exact ShapeOK.leaf g (-10) (-1) (-1)
      | false =>
        cases hE : g.emptyIndices with
        | nil =>
          rw [abF_draw fuel g p mx mn α β hw1 hw2 hE]
          exact ShapeOK.leaf g 0 (-1) (-1)
        | cons e es =>
          have hne : g.emptyIndices ≠ [] := by rw [hE]; simp
          rw [abF_node fuel g p mx mn α β hw1 hw2 hne]
          refine ShapeOK.mk _ _ _ _ _ (Or.inr ?_) ?_
          · rw [abLoop_length]
            simp
          · apply abLoop_members
            · intro s q a b2
              exact ShapeOK.setSpotIndex _ (ih (g.set s p) q mx mn a b2)
            · intro s sc
              exact ShapeOK.setSpotIndex _ (ShapeOK.leaf _ _ _ _)
            · intro c hc
              cases hc

end TTT

namespace TTT

theorem if_lt_eq_max (b v : Int) : (if b < v then v else b) = max b v := by
  split_ifs with h
  · exact (max_eq_right (le_of_lt h)).symm
  · exact (max_eq_left (le_of_not_lt h)).symm

theorem if_lt_eq_min (b v : Int) : (if v < b then v else b) = min b v := by
  split_ifs with h
  · exact (min_eq_right (le_of_lt h)).symm
  · exact (min_eq_left (le_of_not_lt h)).symm

theorem abLoop_suffix_max (rec : Grid → Char → Int → Int → Move)
    (g : Grid) (p mx mn : Char) (hp : p = mx) (β α₀ : Int) :
    ∀ (spots : List Nat) (α b bi idx : Int) (ch : List Move),
    α = max α₀ b →
    ∃ k : Nat, (spots ≠ [] → 1 ≤ k) ∧
      (abLoop rec g p mx mn spots α β b bi idx false ch).2.2.drop
          (ch.length + k) =
        (spots.drop k).map (fun s =>
          (Move.mk (g.set s p)
            (max α₀ (abLoop rec g p mx mn spots α β b bi idx
              false ch).1) [] (-1) (-1)).setSpotIndex (s : Int)) := by
  subst hp
  intro spots
  induction spots with
  | nil =>
    intro α b bi idx ch hinv
    refine ⟨0, by simp, ?_⟩
    simp [abLoop, List.drop_length]
  | cons s rest ih =>
    intro α b bi idx ch hinv
    simp only [abLoop, Bool.false_eq_true, if_false, eq_self_iff_true,
      if_true, if_lt_eq_max]
    have hbb2 : b ≤ max b (rec (g.set s p) mn α β).score := le_max_left _ _
    have hinv2 : max α (max b (rec (g.set s p) mn α β).score) =
        max α₀ (max b (rec (g.set s p) mn α β).score) := by
      rw [hinv, max_assoc, ← max_assoc b b, max_self]
    by_cases hpr : β ≤ max α (max b (rec (g.set s p) mn α β).score)
    · rw [decide_eq_true hpr, abLoop_pruned_run]
      refine ⟨1, fun _ => le_refl 1, ?_⟩
      simp only [eq_self_iff_true, if_true]
      have hlen : ch.length + 1 =
          (ch ++ [(rec (g.set s p) mn α β).setSpotIndex (s : Int)]).length := by
        simp
      rw [hlen, List.drop_left, hinv2]
      simp
    · rw [decide_eq_false hpr]
      obtain ⟨k2, hk1, hk2⟩ := ih (max α (max b (rec (g.set s p) mn α β).score))
        (max b (rec (g.set s p) mn α β).score)
        (if b < (rec (g.set s p) mn α β).score then idx else bi) (idx + 1)
        (ch ++ [(rec (g.set s p) mn α β).setSpotIndex (s : Int)]) hinv2
      refine ⟨k2 + 1, fun _ => by omega, ?_⟩
      have harith : ch.length + (k2 + 1) =
          (ch ++ [(rec (g.set s p) mn α β).setSpotIndex
            (s : Int)]).length + k2 := by
        simp
        omega
      rw [harith]
      simpa using hk2

theorem abLoop_suffix_min (rec : Grid → Char → Int → Int → Move)
    (g : Grid) (p mx mn : Char) (hp : ¬ p = mx) (α β₀ : Int) :
    ∀ (spots : List Nat) (β b bi idx : Int) (ch : List Move),
    β = min β₀ b →
    ∃ k : Nat, (spots ≠ [] → 1 ≤ k) ∧
      (abLoop rec g p mx mn spots α β b bi idx false ch).2.2.drop
          (ch.length + k) =
        (spots.drop k).map (fun s =>
          (Move.mk (g.set s p)
            (min β₀ (abLoop rec g p mx mn spots α β b bi idx
              false ch).1) [] (-1) (-1)).setSpotIndex (s : Int)) := by
  intro spots
  induction spots with
  | nil =>
    intro β b bi idx ch hinv
    refine ⟨0, by simp, ?_⟩
    simp [abLoop, List.drop_length]
  | cons s rest ih =>
    intro β b bi idx ch hinv
    simp only [abLoop, Bool.false_eq_true, if_false, hp, if_lt_eq_min]
    have hbb2 : min b (rec (g.set s p) mx α β).score ≤ b := min_le_left _ _
    have hinv2 : min β (min b (rec (g.set s p) mx α β).score) =
        min β₀ (min b (rec (g.set s p) mx α β).score) := by
      rw [hinv, min_assoc, ← min_assoc b b, min_self]
    by_cases hpr : min β (min b (rec (g.set s p) mx α β).score) ≤ α
    · rw [decide_eq_true hpr, abLoop_pruned_run]
      refine ⟨1, fun _ => le_refl 1, ?_⟩
      simp only [hp, if_false]
      have hlen : ch.length + 1 =
          (ch ++ [(rec (g.set s p) mx α β).setSpotIndex (s : Int)]).length := by
        simp
      rw [hlen, List.drop_left, hinv2]
      simp
    · rw [decide_eq_false hpr]
      obtain ⟨k2, hk1, hk2⟩ := ih (min β (min b (rec (g.set s p) mx α β).score))
        (min b (rec (g.set s p) mx α β).score)
        (if (rec (g.set s p) mx α β).score < b then idx else bi) (idx + 1)
        (ch ++ [(rec (g.set s p) mx α β).setSpotIndex (s : Int)]) hinv2
      refine ⟨k2 + 1, fun _ => by omega, ?_⟩
      have harith : ch.length + (k2 + 1) =
          (ch ++ [(rec (g.set s p) mx α β).setSpotIndex
            (s : Int)]).length + k2 := by
        simp
        omega
      rw [harith]
      simpa using hk2

end TTT

namespace TTT

/-- C6: every node of the tree returned by alpha-beta either is childless
or has exactly one child per legal move of its grid (`ShapeOK`); and at a
non-terminal root, once pruning has triggered, each remaining sibling move
is still attached as a childless placeholder node scored with the current
alpha bound (maximizer ply) or beta bound (minimizer ply), namely
`max alpha bestScore` respectively `min beta bestScore`. -/
theorem alphabeta_tree_shape (g : Grid) (p mx mn : Char) (α β : Int) :
    ShapeOK (alpha_beta_pruning_all_branches g p mx mn α β) ∧
    (g.winning mx = false → g.winning mn = false →
      g.emptyIndices ≠ [] → INT_MIN ≤ α → β ≤ INT_MAX →
      (alpha_beta_pruning_all_branches g p mx mn α β).next.length =
        g.emptyIndices.length ∧
      ∃ k : Nat, 1 ≤ k ∧
        (alpha_beta_pruning_all_branches g p mx mn α β).next.drop k =
          (g.emptyIndices.drop k).map (fun s =>
            (Move.mk (g.set s p)
              (if p = mx
                then max α
                  (alpha_beta_pruning_all_branches g p mx mn α β).score
                else min β
                  (alpha_beta_pruning_all_branches g p mx mn α β).score)
              [] (-1) (-1)).setSpotIndex (s : Int))) := by
  constructor
  · exact abF_shapeOK 9 g p mx mn α β
  · intro h1 h2 h3 hα hβ
    have hab : alpha_beta_pruning_all_branches g p mx mn α β =
        abF (8 + 1) g p mx mn α β := rfl
    rw [hab, abF_node 8 g p mx mn α β h1 h2 h3]
    simp only [Move.next_mk, Move.score_mk]
    refine ⟨by rw [abLoop_length]; simp, ?_⟩
    by_cases hp : p = mx
    · simp only [hp, eq_self_iff_true, if_true]
      obtain ⟨k, hk1, hk2⟩ := abLoop_suffix_max
        (fun g2 p2 a b => abF 8 g2 p2 mx mn a b) g mx mx mn rfl β α
        g.emptyIndices α INT_MIN 0 0 [] ((max_eq_left hα).symm)
      exact ⟨k, hk1 h3, by simpa using hk2⟩
    · simp only [if_neg hp]
      obtain ⟨k, hk1, hk2⟩ := abLoop_suffix_min
        (fun g2 p2 a b => abF 8 g2 p2 mx mn a b) g p mx mn hp α β
        g.emptyIndices β INT_MAX 0 0 [] ((min_eq_left hβ).symm)
      exact ⟨k, hk1 h3, by simpa using hk2⟩

/-- Witness for C6: concrete non-terminal board, with a zero-width
alpha-beta window so that pruning fires after the first child. -/
theorem alphabeta_tree_shape_witness :
    (Grid.winning gNT 'x' = false ∧ Grid.winning gNT 'o' = false ∧
      gNT.emptyIndices ≠ [] ∧ INT_MIN ≤ (0 : Int) ∧
      (0 : Int) ≤ INT_MAX) ∧
    ((alpha_beta_pruning_all_branches gNT 'x' 'x' 'o' 0 0).next.length =
      gNT.emptyIndices.length ∧
    ∃ k : Nat, 1 ≤ k ∧
      (alpha_beta_pruning_all_branches gNT 'x' 'x' 'o' 0 0).next.drop k =
        (gNT.emptyIndices.drop k).map (fun s =>
          (Move.mk (gNT.set s 'x')
            (if ('x' : Char) = 'x'
              then max 0
                (alpha_beta_pruning_all_branches gNT 'x' 'x' 'o' 0 0).score
              else min 0
                (alpha_beta_pruning_all_branches gNT 'x' 'x' 'o' 0 0).score)
            [] (-1) (-1)).setSpotIndex (s : Int))) :=
  ⟨⟨by decide, by decide, by decide, by decide, by decide⟩,
    (alphabeta_tree_shape gNT 'x' 'x' 'o' 0 0).2 (by decide) (by decide)
      (by decide) (by decide) (by decide)⟩

end TTT

namespace TTT

/-- Fail-soft alpha-beta contract: `v` is the value computed by the pruned
search with window `(a, b)`, `m` the true minimax value.  Inside the window
they agree; outside, `v` fails on the same side of the bound as `m`. -/
def FS (v m a b : Int) : Prop :=
  (m ≤ a → v ≤ a) ∧ (a < m → m < b → v = m) ∧ (b ≤ m → b ≤ v)

theorem FS_refl (m a b : Int) : FS m m a b :=
  ⟨fun h => h, fun _ _ => rfl, fun h => h⟩

theorem abLoop_failsoft_max (rec : Grid → Char → Int → Int → Move)
    (g : Grid) (mx mn : Char) (β : Int) (val : Nat → Int) :
    ∀ (spots : List Nat) (α b bi idx : Int) (ch : List Move),
    (∀ s ∈ spots, ∀ a b2 : Int, a < b2 → INT_MIN ≤ a → b2 ≤ INT_MAX →
      FS (rec (g.set s mx) mn a b2).score (val s) a b2) →
    α < β → b ≤ α → INT_MIN ≤ α → β ≤ INT_MAX →
    b ≤ (abLoop rec g mx mx mn spots α β b bi idx false ch).1 ∧
    (foldMax b (spots.map val) ≤ α →
      (abLoop rec g mx mx mn spots α β b bi idx false ch).1 ≤ α) ∧
    (α < foldMax b (spots.map val) → foldMax b (spots.map val) < β →
      (abLoop rec g mx mx mn spots α β b bi idx false ch).1 =
        foldMax b (spots.map val)) ∧
    (β ≤ foldMax b (spots.map val) →
      β ≤ (abLoop rec g mx mx mn spots α β b bi idx false ch).1) ∧
    (foldMax b (spots.map val) < β →
      (abLoop rec g mx mx mn spots α β b bi idx false ch).1 ≤
        max α (foldMax b (spots.map val))) := by
  intro spots
  induction spots with
  | nil =>
    intro α b bi idx ch hrec hαβ hbα hmin hmax
    simp only [abLoop, List.map_nil]
    exact ⟨le_rfl, fun h => h, fun _ _ => rfl, fun h => h,
      fun _ => le_max_right α _⟩
  | cons s rest ih =>
    intro α b bi idx ch hrec hαβ hbα hmin hmax
    simp only [abLoop, Bool.false_eq_true, if_false, eq_self_iff_true,
      if_true, if_lt_eq_max, List.map_cons, foldMax_cons]
    set v : Int := (rec (g.set s mx) mn α β).score with hveq
    obtain ⟨hFS1, hFS2, hFS3⟩ :=
      hrec s (List.mem_cons_self _ _) α β hαβ hmin hmax
    rw [← hveq] at hFS1 hFS2 hFS3
    have hbv1 : b ≤ max b v := le_max_left b v
    have hbv2 : v ≤ max b v := le_max_right b v
    have hbv3 := max_choice b v
    have hav1 : α ≤ max α (max b v) := le_max_left _ _
    have hav2 : max b v ≤ max α (max b v) := le_max_right _ _
    have hav3 := max_choice α (max b v)
    have hseedM : max b (val s) ≤ foldMax (max b (val s)) (rest.map val) :=
      le_foldMax_self _ _
    have hvalseed : val s ≤ max b (val s) := le_max_right b (val s)
    have hbseed : b ≤ max b (val s) := le_max_left b (val s)
    have helem : ∀ x ∈ rest.map val,
        x ≤ foldMax (max b (val s)) (rest.map val) :=
      fun x hx => le_foldMax_of_mem _ hx
    by_cases hpr : β ≤ max α (max b v)
    · rw [decide_eq_true hpr, abLoop_pruned_run]
      have hvβ : β ≤ v := by
        rcases hav3 with h | h
        · omega
        · rcases hbv3 with h2 | h2 <;> omega
      have hvalβ : β ≤ val s := by
        by_contra hcon
        push_neg at hcon
        rcases le_or_lt (val s) α with hle | hlt
        · have := hFS1 hle
          omega
        · have := hFS2 hlt hcon
          omega
      refine ⟨by omega, ?_, ?_, ?_, ?_⟩ <;> intros <;> omega
    · push_neg at hpr
      have hvltβ : v < β := by omega
      have hvalltβ : val s < β := by
        by_contra hcon
        push_neg at hcon
        have := hFS3 hcon
        omega
      have hrec2 : ∀ s2 ∈ rest, ∀ a b2 : Int, a < b2 → INT_MIN ≤ a →
          b2 ≤ INT_MAX →
          FS (rec (g.set s2 mx) mn a b2).score (val s2) a b2 :=
        fun s2 hs2 => hrec s2 (List.mem_cons_of_mem _ hs2)
      rw [decide_eq_false (by omega : ¬ β ≤ max α (max b v))]
      obtain ⟨ih0, ih1, ih2, ih3, ih4⟩ := ih (max α (max b v)) (max b v)
        (if b < v then idx else bi) (idx + 1)
        (ch ++ [(rec (g.set s mx) mn α β).setSpotIndex (s : Int)])
        hrec2 (by omega) hav2 (by omega) hmax
      by_cases hvala : val s ≤ α
      · have hvle : v ≤ α := hFS1 hvala
        have hα2eq : max α (max b v) = α := max_eq_left (by omega)
        rw [hα2eq] at ih0 ih1 ih2 ih3 ih4 ⊢
        have hseed_le : max b (val s) ≤ α := max_le hbα hvala
        refine ⟨by omega, ?_, ?_, ?_, ?_⟩
        · intro hMα
          have hM2 : foldMax (max b v) (rest.map val) ≤ α := by
            rw [foldMax_le_iff]
            exact ⟨by omega, fun x hx =>
              le_trans (helem x hx) hMα⟩
          have := ih1 hM2
          omega
        · intro hαM hMβ
          rcases foldMax_eq_seed_or_mem (max b (val s)) (rest.map val)
            with hMs | ⟨x0, hx0, hMx⟩
          · omega
          · have hM'ge : foldMax (max b (val s)) (rest.map val) ≤
                foldMax (max b v) (rest.map val) := by
              rw [hMx]
              exact le_foldMax_of_mem _ hx0
            have hM'le : foldMax (max b v) (rest.map val) ≤
                foldMax (max b (val s)) (rest.map val) := by
              rw [foldMax_le_iff]
              exact ⟨by omega, fun x hx => helem x hx⟩
            have := ih2 (by omega) (by omega)
            omega
        · intro hβM
          rcases foldMax_eq_seed_or_mem (max b (val s)) (rest.map val)
            with hMs | ⟨x0, hx0, hMx⟩
          · omega
          · have hM'ge : foldMax (max b (val s)) (rest.map val) ≤
                foldMax (max b v) (rest.map val) := by
              rw [hMx]
              exact le_foldMax_of_mem _ hx0
            have := ih3 (by omega)
            omega
        · intro hMβ
          have hM'le2 : foldMax (max b v) (rest.map val) ≤
              max α (foldMax (max b (val s)) (rest.map val)) := by
            rw [foldMax_le_iff]
            refine ⟨by
              have := le_max_left α
                (foldMax (max b (val s)) (rest.map val))
              omega, ?_⟩
            intro x hx
            exact le_trans (helem x hx) (le_max_right _ _)
          have hm1 := le_max_left α (foldMax (max b (val s)) (rest.map val))
          have hm2 := le_max_right α (foldMax (max b (val s)) (rest.map val))
          have hm3 := max_choice α (foldMax (max b (val s)) (rest.map val))
          have := ih4 (by omega)
          have hm4 := max_choice α (foldMax (max b v) (rest.map val))
          have hm5 := le_max_left α (foldMax (max b v) (rest.map val))
          have hm6 := le_max_right α (foldMax (max b v) (rest.map val))
          rcases hm3 with h | h <;> rcases hm4 with h2 | h2 <;> omega
      · push_neg at hvala
        have hveqval : v = val s := hFS2 hvala hvalltβ
        rw [hveqval] at ih0 ih1 ih2 ih3 ih4 ⊢
        have hα2a : α ≤ max α (max b (val s)) := le_max_left _ _
        have hα2b : max b (val s) ≤ max α (max b (val s)) := le_max_right _ _
        have hα2c := max_choice α (max b (val s))
        refine ⟨by omega, by omega, ?_, ?_, ?_⟩
        · intro hαM hMβ
          have hα2leM : max α (max b (val s)) ≤
              foldMax (max b (val s)) (rest.map val) := by
            rcases hα2c with h | h <;> omega
          rcases eq_or_lt_of_le hα2leM with heq | hlt
          · have h44 := ih4 hMβ
            have hm4 := max_choice (max α (max b (val s)))
              (foldMax (max b (val s)) (rest.map val))
            have hm5 := le_max_right (max α (max b (val s)))
              (foldMax (max b (val s)) (rest.map val))
            rcases hα2c with h | h <;> rcases hm4 with h2 | h2 <;> omega
          · exact ih2 hlt hMβ
        · intro hβM
          exact ih3 hβM
        · intro hMβ
          have h44 := ih4 hMβ
          have hm4 := max_choice (max α (max b (val s)))
            (foldMax (max b (val s)) (rest.map val))
          have hm5 := le_max_left α (foldMax (max b (val s)) (rest.map val))
          have hm6 := le_max_right α (foldMax (max b (val s)) (rest.map val))
          have hm7 := max_choice α (foldMax (max b (val s)) (rest.map val))
          rcases hα2c with h | h <;> rcases hm4 with h2 | h2 <;>
            rcases hm7 with h3 | h3 <;> omega

end TTT

namespace TTT

theorem abLoop_failsoft_min (rec : Grid → Char → Int → Int → Move)
    (g : Grid) (p mx mn : Char) (hp : ¬ p = mx) (α : Int)
    (val : Nat → Int) :
    ∀ (spots : List Nat) (β b bi idx : Int) (ch : List Move),
    (∀ s ∈ spots, ∀ a b2 : Int, a < b2 → INT_MIN ≤ a → b2 ≤ INT_MAX →
      FS (rec (g.set s p) mx a b2).score (val s) a b2) →
    α < β → β ≤ b → INT_MIN ≤ α → β ≤ INT_MAX →
    (abLoop rec g p mx mn spots α β b bi idx false ch).1 ≤ b ∧
    (foldMin b (spots.map val) ≤ α →
      (abLoop rec g p mx mn spots α β b bi idx false ch).1 ≤ α) ∧
    (α < foldMin b (spots.map val) → foldMin b (spots.map val) < β →
      (abLoop rec g p mx mn spots α β b bi idx false ch).1 =
        foldMin b (spots.map val)) ∧
    (β ≤ foldMin b (spots.map val) →
      β ≤ (abLoop rec g p mx mn spots α β b bi idx false ch).1) ∧
    (α < foldMin b (spots.map val) →
      min β (foldMin b (spots.map val)) ≤
        (abLoop rec g p mx mn spots α β b bi idx false ch).1) := by
  intro spots
  induction spots with
  | nil =>
    intro β b bi idx ch hrec hαβ hβb hmin hmax
    simp only [abLoop, List.map_nil]
    exact ⟨le_rfl, fun h => h, fun _ _ => rfl, fun h => h,
      fun _ => min_le_right β _⟩
  | cons s rest ih =>
    intro β b bi idx ch hrec hαβ hβb hmin hmax
    simp only [abLoop, Bool.false_eq_true, if_false, hp, if_lt_eq_min,
      List.map_cons, foldMin_cons]
    set v : Int := (rec (g.set s p) mx α β).score with hveq
    obtain ⟨hFS1, hFS2, hFS3⟩ :=
      hrec s (List.mem_cons_self _ _) α β hαβ hmin hmax
    rw [← hveq] at hFS1 hFS2 hFS3
    have hbv1 : min b v ≤ b := min_le_left b v
    have hbv2 : min b v ≤ v := min_le_right b v
    have hbv3 := min_choice b v
    have hav1 : min β (min b v) ≤ β := min_le_left _ _
    have hav2 : min β (min b v) ≤ min b v := min_le_right _ _
    have hav3 := min_choice β (min b v)
    have hseedM : foldMin (min b (val s)) (rest.map val) ≤ min b (val s) :=
      foldMin_le_self _ _
    have hvalseed : min b (val s) ≤ val s := min_le_right b (val s)
    have hbseed : min b (val s) ≤ b := min_le_left b (val s)
    have helem : ∀ x ∈ rest.map val,
        foldMin (min b (val s)) (rest.map val) ≤ x :=
      fun x hx => foldMin_le_of_mem _ hx
    by_cases hpr : min β (min b v) ≤ α
    · rw [decide_eq_true hpr, abLoop_pruned_run]
      have hvα : v ≤ α := by
        rcases hav3 with h | h
        · omega
        · rcases hbv3 with h2 | h2 <;> omega
      have hvalα : val s ≤ α := by
        by_contra hcon
        push_neg at hcon
        rcases lt_or_le (val s) β with hlt | hle
        · have := hFS2 hcon hlt
          omega
        · have := hFS3 hle
          omega
      refine ⟨by omega, ?_, ?_, ?_, ?_⟩ <;> intros <;> omega
    · push_neg at hpr
      have hαv : α < v := by omega
      have hvala : α < val s := by
        by_contra hcon
        push_neg at hcon
        have := hFS1 hcon
        omega
      have hrec2 : ∀ s2 ∈ rest, ∀ a b2 : Int, a < b2 → INT_MIN ≤ a →
          b2 ≤ INT_MAX →
          FS (rec (g.set s2 p) mx a b2).score (val s2) a b2 :=
        fun s2 hs2 => hrec s2 (List.mem_cons_of_mem _ hs2)
      rw [decide_eq_false (by omega : ¬ min β (min b v) ≤ α)]
      obtain ⟨ih0, ih1, ih2, ih3, ih4⟩ := ih (min β (min b v)) (min b v)
        (if v < b then idx else bi) (idx + 1)
        (ch ++ [(rec (g.set s p) mx α β).setSpotIndex (s : Int)])
        hrec2 (by omega) hav2 hmin (by omega)
      by_cases hvalb : β ≤ val s
      · have hvge : β ≤ v := hFS3 hvalb
        have hβ2eq : min β (min b v) = β := min_eq_left (by omega)
        rw [hβ2eq] at ih0 ih1 ih2 ih3 ih4 ⊢
        have hseed_ge : β ≤ min b (val s) := le_min hβb hvalb
        refine ⟨by omega, ?_, ?_, ?_, ?_⟩
        · intro hMα
          rcases foldMin_eq_seed_or_mem (min b (val s)) (rest.map val)
            with hMs | ⟨x0, hx0, hMx⟩
          · omega
          · have hM'le : foldMin (min b v) (rest.map val) ≤
                foldMin (min b (val s)) (rest.map val) := by
              rw [hMx]
              exact foldMin_le_of_mem _ hx0
            have := ih1 (by omega)
            omega
        · intro hαM hMβ
          rcases foldMin_eq_seed_or_mem (min b (val s)) (rest.map val)
            with hMs | ⟨x0, hx0, hMx⟩
          · omega
          · have hM'le : foldMin (min b v) (rest.map val) ≤
                foldMin (min b (val s)) (rest.map val) := by
              rw [hMx]
              exact foldMin_le_of_mem _ hx0
            have hM'ge : foldMin (min b (val s)) (rest.map val) ≤
                foldMin (min b v) (rest.map val) := by
              rw [le_foldMin_iff]
              exact ⟨by omega, fun x hx => helem x hx⟩
            have := ih2 (by omega) (by omega)
            omega
        · intro hβM
          have hM'ge : β ≤ foldMin (min b v) (rest.map val) := by
            rw [le_foldMin_iff]
            exact ⟨by omega, fun x hx => le_trans hβM (helem x hx)⟩
          have := ih3 hM'ge
          omega
        · intro hαM
          have hM'ge2 : min β (foldMin (min b (val s)) (rest.map val)) ≤
              foldMin (min b v) (rest.map val) := by
            rw [le_foldMin_iff]
            refine ⟨by
              have := min_le_left β
                (foldMin (min b (val s)) (rest.map val))
              omega, ?_⟩
            intro x hx
            exact le_trans (min_le_right _ _) (helem x hx)
          have hm1 := min_le_left β (foldMin (min b (val s)) (rest.map val))
          have hm2 := min_le_right β (foldMin (min b (val s)) (rest.map val))
          have hm3 := min_choice β (foldMin (min b (val s)) (rest.map val))
          have h44 := ih4 (by rcases hm3 with h | h <;> omega)
          have hm4 := min_choice β (foldMin (min b v) (rest.map val))
          have hm5 := min_le_left β (foldMin (min b v) (rest.map val))
          have hm6 := min_le_right β (foldMin (min b v) (rest.map val))
          rcases hm3 with h | h <;> rcases hm4 with h2 | h2 <;> omega
      · push_neg at hvalb
        have hveqval : v = val s := hFS2 hvala hvalb
        rw [hveqval] at ih0 ih1 ih2 ih3 ih4 ⊢
        have hβ2a : min β (min b (val s)) ≤ β := min_le_left _ _
        have hβ2b : min β (min b (val s)) ≤ min b (val s) := min_le_right _ _
        have hβ2c := min_choice β (min b (val s))
        refine ⟨by omega, by omega, ?_, ?_, ?_⟩
        · intro hαM hMβ
          have hMleβ2 : foldMin (min b (val s)) (rest.map val) ≤
              min β (min b (val s)) := by
            rcases hβ2c with h | h <;> omega
          rcases eq_or_lt_of_le hMleβ2 with heq | hlt
          · have h44 := ih4 hαM
            have hm4 := min_choice (min β (min b (val s)))
              (foldMin (min b (val s)) (rest.map val))
            have hm5 := min_le_right (min β (min b (val s)))
              (foldMin (min b (val s)) (rest.map val))
            rcases hβ2c with h | h <;> rcases hm4 with h2 | h2 <;> omega
          · exact ih2 hαM hlt
        · intro hβM
          omega
        · intro hαM
          have h44 := ih4 hαM
          have hm4 := min_choice (min β (min b (val s)))
            (foldMin (min b (val s)) (rest.map val))
          have hm5 := min_le_left β (foldMin (min b (val s)) (rest.map val))
          have hm6 := min_le_right β (foldMin (min b (val s)) (rest.map val))
          have hm7 := min_choice β (foldMin (min b (val s)) (rest.map val))
          rcases hβ2c with h | h <;> rcases hm4 with h2 | h2 <;>
            rcases hm7 with h3 | h3 <;> omega

end TTT

namespace TTT

theorem abF_failsoft (fuel : Nat) :
    ∀ (g : Grid) (p mx mn : Char) (α β : Int),
    p ≠ ' ' → mx ≠ ' ' → mn ≠ ' ' →
    g.emptyIndices.length ≤ fuel → α < β → INT_MIN ≤ α → β ≤ INT_MAX →
    FS (abF fuel g p mx mn α β).score (minimaxF fuel g p mx mn).score
      α β := by
  induction fuel with
  | zero =>
    intro g p mx mn α β _ _ _ _ _ _ _
    simp only [abF, minimaxF, Move.score_mk]
    exact FS_refl 0 α β
  | succ fuel ih =>
    intro g p mx mn α β hpc hmxc hmnc hfuel hαβ hmin hmax
    cases hw1 : g.winning mx with
    | true =>
      rw [abF_win_max fuel g p mx mn α β hw1,
        minimaxF_win_max fuel g p mx mn hw1]
      exact FS_refl 10 α β
    | false =>
      cases hw2 : g.winning mn with
      | true =>
        rw [abF_win_min fuel g p mx mn α β hw1 hw2,
          minimaxF_win_min fuel g p mx mn hw1 hw2]
        exact FS_refl (-10) α β
      | false =>
        cases hE : g.emptyIndices with
        | nil =>
          rw [abF_draw fuel g p mx mn α β hw1 hw2 hE,
            minimaxF_draw fuel g p mx mn hw1 hw2 hE]
          exact FS_refl 0 α β
        | cons e es =>
          have hne : g.emptyIndices ≠ [] := by rw [hE]; simp
          have hfuel2 : ∀ s ∈ g.emptyIndices, ∀ c : Char, c ≠ ' ' →
              ((g.set s c).emptyIndices).length ≤ fuel := by
            intro s hs c hc
            have := Grid.emptyIndices_set_length g s c hs hc
            omega
          by_cases hp2 : p = mx
          · subst hp2
            rw [abF_node fuel g p p mn α β hw1 hw2 hne,
              minimaxF_max_node fuel g p p mn hw1 hw2 hne rfl]
            simp only [Move.score_mk, map_score_children, eq_self_iff_true,
              if_true]
            rw [(bestScanMax_spec _ INT_MIN 0 0).1]
            have hrec : ∀ s ∈ g.emptyIndices, ∀ a b2 : Int, a < b2 →
                INT_MIN ≤ a → b2 ≤ INT_MAX →
                FS (abF fuel (g.set s p) mn p mn a b2).score
                  ((minimaxF fuel (g.set s p) mn p mn).score) a b2 := by
              intro s hs a b2 hab hamin hbmax
              exact ih (g.set s p) mn p mn a b2 hmnc hpc hmnc
                (hfuel2 s hs p hpc) hab hamin hbmax
            obtain ⟨l0, l1, l2, l3, l4⟩ := abLoop_failsoft_max
              (fun g2 p2 a b => abF fuel g2 p2 p mn a b) g p mn β
              (fun s => (minimaxF fuel (g.set s p) mn p mn).score)
              g.emptyIndices α INT_MIN 0 0 [] hrec hαβ hmin hmin hmax
            exact ⟨l1, l2, l3⟩
          · rw [abF_node fuel g p mx mn α β hw1 hw2 hne,
              minimaxF_min_node fuel g p mx mn hw1 hw2 hne hp2]
            simp only [Move.score_mk, map_score_children, hp2, if_false]
            rw [(bestScanMin_spec _ INT_MAX 0 0).1]
            have hrec : ∀ s ∈ g.emptyIndices, ∀ a b2 : Int, a < b2 →
                INT_MIN ≤ a → b2 ≤ INT_MAX →
                FS (abF fuel (g.set s p) mx mx mn a b2).score
                  ((minimaxF fuel (g.set s p) mx mx mn).score) a b2 := by
              intro s hs a b2 hab hamin hbmax
              exact ih (g.set s p) mx mx mn a b2 hmxc hmxc hmnc
                (hfuel2 s hs p hpc) hab hamin hbmax
            obtain ⟨l0, l1, l2, l3, l4⟩ := abLoop_failsoft_min
              (fun g2 p2 a b => abF fuel g2 p2 mx mn a b) g p mx mn hp2 α
              (fun s => (minimaxF fuel (g.set s p) mx mx mn).score)
              g.emptyIndices β INT_MAX 0 0 [] hrec hαβ hmax hmin hmax
            exact ⟨l1, l2, l3⟩

/-- C1: for every grid and every real player mark, the score of the root
node returned by `alpha_beta_pruning_all_branches(grid, player, maximizer,
minimizer, INT_MIN, INT_MAX)` equals the score of the root node returned
by `minimax(grid, player, maximizer, minimizer)`. -/
theorem alphabeta_root_score_eq_minimax (g : Grid) (p mx mn : Char)
    (hpc : p ≠ ' ') (hmxc : mx ≠ ' ') (hmnc : mn ≠ ' ') :
    (alpha_beta_pruning_all_branches g p mx mn INT_MIN INT_MAX).score =
      (minimax g p mx mn).score := by
  have hfs := abF_failsoft 9 g p mx mn INT_MIN INT_MAX hpc hmxc hmnc
    (Grid.emptyIndices_length_le g) (by norm_num [INT_MIN, INT_MAX])
    le_rfl le_rfl
  have hb := minimaxF_score_bounds 9 g p mx mn
  have h1 : (INT_MIN : Int) < -10 := by norm_num [INT_MIN]
  have h2 : (10 : Int) < INT_MAX := by norm_num [INT_MAX]
  exact hfs.2.1 (by omega) (by omega)

/-- Witness for C1 on a concrete midgame board. -/
theorem alphabeta_root_score_eq_minimax_witness :
    (('x' : Char) ≠ ' ' ∧ ('o' : Char) ≠ ' ') ∧
    (alpha_beta_pruning_all_branches gNT 'x' 'x' 'o' INT_MIN
      INT_MAX).score = (minimax gNT 'x' 'x' 'o').score :=
  ⟨⟨by decide, by decide⟩,
    alphabeta_root_score_eq_minimax gNT 'x' 'x' 'o' (by decide) (by decide)
      (by decide)⟩

end TTT

namespace BT

/-!
Assignment 08: the backtracking Sudoku solver.  The maps (`AI::MapInt1D`,
`AI::MapInt2D`) are flat integer arrays, embedded as `List Nat`; the class
`AI::Location<int>` of the missing `data.h` holds a base pointer and an
index and is modelled from the spec: a location is either valid (an index
into the map) or the not-found sentinel (null base), so it becomes
`Option Nat`; `Location::clearValue` writes 0 through the pointer and
`Location::notFound` tests the sentinel.
-/

/-- Reading `base[i]` of a map. -/
def cellAt (m : List Nat) (i : Nat) : Nat := m.getD i 0

/-- `NextLocation_Sudoku1D::operator()`: the first index holding 0, or the
not-found sentinel. -/
def nlAux : List Nat → Nat → Option Nat
  | [], _ => none
  | v :: rest, i => if v = 0 then some i else nlAux rest (i + 1)

/-- `NextLocation_Sudoku1D::operator()` scans `base[0..size)` in order. -/
def nextLocation1D (m : List Nat) : Option Nat := nlAux m 0

/-- Inner loop of `NextLocation_Sudoku2D::operator()`: scan row `j`,
columns `i ≤ i2 < width`; the extra counter `width - i` makes the C++
`for` loop structurally recursive. -/
def nlRowAux (m : List Nat) (width j : Nat) : Nat → Nat → Option Nat
  | 0, _ => none
  | count + 1, i =>
    if i < width then
      (if cellAt m (j * width + i) = 0 then some (j * width + i)
       else nlRowAux m width j count (i + 1))
    else none

/-- Outer loop of `NextLocation_Sudoku2D::operator()`: scan rows
`j ≤ j2 < height`, again with a structural counter. -/
def nlColAux (m : List Nat) (width height : Nat) : Nat → Nat → Option Nat
  | 0, _ => none
  | count + 1, j =>
    if j < height then
      (match nlRowAux m width j width 0 with
       | some k => some k
       | none => nlColAux m width height count (j + 1))
    else none

/-- `NextLocation_Sudoku2D::operator()`: first empty cell in row-major
order. -/
def nextLocation2D (m : List Nat) (width height : Nat) : Option Nat :=
  nlColAux m width height height 0

/-- The candidate loop shared by both `NextCandidate` functors: try the
values `val, val+1, ..., 9` in order and return the first one on which
`conflict` is false; `none` when all conflict.  The counter `10 - val`
makes the C++ `for` loop structurally recursive. -/
def candLoopAux (conflict : Nat → Bool) : Nat → Nat → Option Nat
  | 0, _ => none
  | count + 1, val =>
    if val ≤ 9 then
      (if conflict val then candLoopAux conflict count (val + 1)
       else some val)
    else none

/-- The candidate loop entered at `val`. -/
def candLoop (conflict : Nat → Bool) (val : Nat) : Option Nat :=
  candLoopAux conflict (10 - val) val

/-- The existence scan of `NextCandidate_Sudoku1D::operator()`:
`base[i] == val` for some `i < size`. -/
def existsVal (m : List Nat) (w : Nat) : Bool := m.any (fun x => x == w)

/-- `NextCandidate_Sudoku1D::operator()`: starting from the value after
the current one, find the smallest value `<= 9` absent from the whole
array, write it into the cell and return it; on exhaustion write 0 and
return 0.  Returns the value together with the updated map. -/
def nextCandidate1D (m : List Nat) (index : Nat) : Nat × List Nat :=
  match candLoop (fun w => existsVal m w) (cellAt m index + 1) with
  | some w => (w, m.set index w)
  | none => (0, m.set index 0)

/-- Row scan of `NextCandidate_Sudoku2D::operator()`. -/
def rowHas (m : List Nat) (width row w : Nat) : Bool :=
  (List.range width).any (fun i => cellAt m (row * width + i) == w)

/-- Column scan of `NextCandidate_Sudoku2D::operator()`. -/
def colHas (m : List Nat) (width height col w : Nat) : Bool :=
  (List.range height).any (fun j => cellAt m (j * width + col) == w)

/-- 3x3 box scan of `NextCandidate_Sudoku2D::operator()`. -/
def boxHas (m : List Nat) (width row col w : Nat) : Bool :=
  (List.range 3).any (fun j => (List.range 3).any (fun i =>
    cellAt m ((row / 3 * 3 + j) * width + (col / 3 * 3 + i)) == w))

/-- The combined constraint check of `NextCandidate_Sudoku2D`: the value
exists in the row, the column or the enclosing 3x3 box. -/
def conflict2D (m : List Nat) (width height index w : Nat) : Bool :=
  rowHas m width (index / width) w ||
  colHas m width height (index % width) w ||
  boxHas m width (index / width) (index % width) w

/-- `NextCandidate_Sudoku2D::operator()`. -/
def nextCandidate2D (m : List Nat) (width height index : Nat) :
    Nat × List Nat :=
  match candLoop (fun w => conflict2D m width height index w)
      (cellAt m index + 1) with
  | some w => (w, m.set index w)
  | none => (0, m.set index 0)

/-- The solver state: the map being solved plus the explicit stack of
locations (`std::stack<Location<>>`, head = top). -/
structure BTState where
  map : List Nat
  stack : List Nat

/-- The common part of `AI::Backtracking::solve()` once the stack is known
to be non-empty: ask the top location for its next candidate; on 0 clear
the cell and pop (backtrack), otherwise push the next empty location or
report completion.  Returns the new state and the value `solve()`
returns. -/
def solveCore (nl : List Nat → Option Nat)
    (nc : List Nat → Nat → Nat × List Nat) (s : BTState) :
    BTState × Bool :=
  let current := s.stack.headD 0
  let r := nc s.map current
  if r.1 = 0 then
    (⟨r.2.set current 0, s.stack.tail⟩, true)
  else
    match nl r.2 with
    | none => (⟨r.2, s.stack⟩, false)
    | some nxt => (⟨r.2, nxt :: s.stack⟩, true)

/-- `AI::Backtracking::solve()`: when the stack is empty, fetch the first
unassigned location (reporting `false` when there is none) and push it,
then run the candidate step. -/
def solveStep (nl : List Nat → Option Nat)
    (nc : List Nat → Nat → Nat × List Nat) (s : BTState) :
    BTState × Bool :=
  match s.stack with
  | [] =>
    match nl s.map with
    | none => (s, false)
    | some loc => solveCore nl nc ⟨s.map, [loc]⟩
  | _ :: _ => solveCore nl nc s

/-- `AI::Backtracking::run()` (`while (solve());`), with an explicit step
budget: iterate `solve()`; the boolean result records whether `run()` has
returned (i.e. some `solve()` call returned false) within the budget. -/
def btIterate (nl : List Nat → Option Nat)
    (nc : List Nat → Nat → Nat × List Nat) :
    Nat → BTState → BTState × Bool
  | 0, s => (s, false)
  | n + 1, s =>
    let r := solveStep nl nc s
    if r.2 then btIterate nl nc n r.1 else (r.1, true)

/-- The 1-D solver assembled as in
`Backtracking<NextLocation_Sudoku1D, NextCandidate_Sudoku1D>`. -/
def solveStep1D (s : BTState) : BTState × Bool :=
  solveStep nextLocation1D (fun m i => nextCandidate1D m i) s

/-- `run()` of the 1-D solver, with a step budget. -/
def run1D (n : Nat) (s : BTState) : BTState × Bool :=
  btIterate nextLocation1D (fun m i => nextCandidate1D m i) n s

/-- The 2-D solver assembled as in
`Backtracking<NextLocation_Sudoku2D, NextCandidate_Sudoku2D>` on a 9x9
map. -/
def solveStep2D (s : BTState) : BTState × Bool :=
  solveStep (fun m => nextLocation2D m 9 9)
    (fun m i => nextCandidate2D m 9 9 i) s

/-- `run()` of the 2-D solver, with a step budget. -/
def run2D (n : Nat) (s : BTState) : BTState × Bool :=
  btIterate (fun m => nextLocation2D m 9 9)
    (fun m i => nextCandidate2D m 9 9 i) n s

end BT

namespace BT

/-- A 1-D map with no valid completion: the single empty cell 0 conflicts
with every value 1..9, all of which are already present. -/
def unsolv1D : List Nat := [0, 1, 2, 3, 4, 5, 6, 7, 8, 9]

/-- C3 (refuted by the code): on the unsolvable 1-D map `unsolv1D` a full
`solve()` call pushes cell 0, exhausts its candidates, clears it and pops,
returns `true`, and leaves the state exactly where it started; hence
`run()` (`while (solve());`) never terminates: no step budget makes the
iteration report completion. -/
theorem run_diverges_on_unsolvable :
    solveStep1D ⟨unsolv1D, []⟩ = (⟨unsolv1D, []⟩, true) ∧
    ∀ n : Nat, (run1D n ⟨unsolv1D, []⟩).2 = false := by
  have hfix : solveStep nextLocation1D (fun m i => nextCandidate1D m i)
      ⟨unsolv1D, []⟩ = (⟨unsolv1D, []⟩, true) := rfl
  refine ⟨rfl, ?_⟩
  intro n
  induction n with
  | zero => rfl
  | succ n ih =>
    show (btIterate nextLocation1D (fun m i => nextCandidate1D m i)
      (n + 1) ⟨unsolv1D, []⟩).2 = false
    rw [btIterate, hfix]
    exact ih

end BT

namespace BT

theorem candLoopAux_some (conflict : Nat → Bool) :
    ∀ (count val w : Nat),
    candLoopAux conflict count val = some w →
    val ≤ w ∧ w ≤ 9 ∧ conflict w = false ∧
      ∀ u, val ≤ u → u < w → conflict u = true := by
  intro count
  induction count with
  | zero =>
    intro val w h
    cases h
  | succ count ih =>
    intro val w h
    simp only [candLoopAux] at h
    by_cases h9 : val ≤ 9
    · rw [if_pos h9] at h
      cases hc : conflict val with
      | true =>
        rw [hc, if_pos rfl] at h
        obtain ⟨h1, h2, h3, h4⟩ := ih (val + 1) w h
        refine ⟨by omega, h2, h3, ?_⟩
        intro u hu1 hu2
        rcases eq_or_lt_of_le hu1 with rfl | hlt
        · exact hc
        · exact h4 u (by omega) hu2
      | false =>
        rw [hc] at h
        simp at h
        subst h
        exact ⟨le_refl _, h9, hc, fun u h1 h2 => by omega⟩
    · rw [if_neg h9] at h
      cases h

theorem candLoopAux_none (conflict : Nat → Bool) :
    ∀ (count val : Nat), 10 ≤ val + count →
    candLoopAux conflict count val = none →
    ∀ w, val ≤ w → w ≤ 9 → conflict w = true := by
  intro count
  induction count with
  | zero =>
    intro val hv _ w hw1 hw2
    omega
  | succ count ih =>
    intro val hv h w hw1 hw2
    simp only [candLoopAux] at h
    by_cases h9 : val ≤ 9
    · rw [if_pos h9] at h
      cases hc : conflict val with
      | true =>
        rw [hc, if_pos rfl] at h
        rcases eq_or_lt_of_le hw1 with rfl | hlt
        · exact hc
        · exact ih (val + 1) (by omega) h w (by omega) hw2
      | false =>
        rw [hc] at h
        simp at h
    · omega

theorem candLoop_bound (val : Nat) : 10 ≤ val + (10 - val) := by omega

theorem existsVal_iff (m : List Nat) (w : Nat) :
    existsVal m w = true ↔ ∃ j, j < m.length ∧ cellAt m j = w := by
  simp only [existsVal, List.any_eq_true, beq_iff_eq]
  constructor
  · rintro ⟨x, hx, rfl⟩
    obtain ⟨j, hj, hget⟩ := List.mem_iff_getElem.mp hx
    exact ⟨j, hj, by rw [cellAt, List.getD_eq_getElem _ _ hj, hget]⟩
  · rintro ⟨j, hj, hget⟩
    refine ⟨cellAt m j, ?_, hget⟩
    rw [cellAt, List.getD_eq_getElem _ _ hj]
    exact List.getElem_mem hj

theorem cellAt_cons_succ (v : Nat) (m : List Nat) (j : Nat) :
    cellAt (v :: m) (j + 1) = cellAt m j := rfl

theorem cellAt_cons_zero (v : Nat) (m : List Nat) :
    cellAt (v :: m) 0 = v := rfl

theorem nlAux_none (m : List Nat) : ∀ (i0 : Nat),
    nlAux m i0 = none → ∀ j, j < m.length → cellAt m j ≠ 0 := by
  induction m with
  | nil =>
    intro i0 _ j hj
    simp at hj
  | cons v rest ih =>
    intro i0 h j hj
    simp only [nlAux] at h
    by_cases hv : v = 0
    · rw [if_pos hv] at h
      cases h
    · rw [if_neg hv] at h
      cases j with
      | zero => exact hv
      | succ j2 =>
        rw [cellAt_cons_succ]
        exact ih (i0 + 1) h j2 (by simpa using hj)

theorem nlAux_some (m : List Nat) : ∀ (i0 k : Nat),
    nlAux m i0 = some k →
    ∃ jj, k = i0 + jj ∧ jj < m.length ∧ cellAt m jj = 0 ∧
      ∀ j2, j2 < jj → cellAt m j2 ≠ 0 := by
  induction m with
  | nil =>
    intro i0 k h
    cases h
  | cons v rest ih =>
    intro i0 k h
    simp only [nlAux] at h
    by_cases hv : v = 0
    · rw [if_pos hv] at h
      simp at h
      exact ⟨0, by omega, by simp, hv, fun j2 hj2 => by omega⟩
    · rw [if_neg hv] at h
      obtain ⟨jj, hk, hlt, hz, hpre⟩ := ih (i0 + 1) k h
      refine ⟨jj + 1, by omega, by simpa using hlt, hz, ?_⟩
      intro j2 hj2
      cases j2 with
      | zero => exact hv
      | succ j3 =>
        rw [cellAt_cons_succ]
        exact hpre j3 (by omega)

theorem nlAux_first (m : List Nat) : ∀ (i0 jj : Nat), jj < m.length →
    cellAt m jj = 0 → (∀ j2, j2 < jj → cellAt m j2 ≠ 0) →
    nlAux m i0 = some (i0 + jj) := by
  induction m with
  | nil =>
    intro i0 jj hj
    simp at hj
  | cons v rest ih =>
    intro i0 jj hj hz hpre
    simp only [nlAux]
    cases jj with
    | zero =>
      have hv0 : v = 0 := hz
      rw [if_pos hv0]
      simp
    | succ jj2 =>
      have hv : ¬ v = 0 := hpre 0 (by omega)
      rw [if_neg hv]
      rw [ih (i0 + 1) jj2 (by simpa using hj) hz
        (fun j2 hj2 => hpre (j2 + 1) (by omega))]
      congr 1
      omega

end BT

namespace BT

theorem nlRowAux_none_spec (m : List Nat) (j : Nat) :
    ∀ (count i : Nat), 9 ≤ i + count →
    nlRowAux m 9 j count i = none →
    ∀ i2, i ≤ i2 → i2 < 9 → cellAt m (j * 9 + i2) ≠ 0 := by
  intro count
  induction count with
  | zero =>
    intro i hb _ i2 h1 h2
    omega
  | succ count ih =>
    intro i hb h i2 h1 h2
    simp only [nlRowAux] at h
    by_cases hi : i < 9
    · rw [if_pos hi] at h
      by_cases hz : cellAt m (j * 9 + i) = 0
      · rw [if_pos hz] at h
        cases h
      · rw [if_neg hz] at h
        rcases eq_or_lt_of_le h1 with rfl | hlt
        · exact hz
        · exact ih (i + 1) (by omega) h i2 (by omega) h2
    · omega

theorem nlRowAux_some_spec (m : List Nat) (j : Nat) :
    ∀ (count i k : Nat), nlRowAux m 9 j count i = some k →
    ∃ i2, i ≤ i2 ∧ i2 < 9 ∧ k = j * 9 + i2 ∧ cellAt m k = 0 ∧
      ∀ i3, i ≤ i3 → i3 < i2 → cellAt m (j * 9 + i3) ≠ 0 := by
  intro count
  induction count with
  | zero =>
    intro i k h
    cases h
  | succ count ih =>
    intro i k h
    simp only [nlRowAux] at h
    by_cases hi : i < 9
    · rw [if_pos hi] at h
      by_cases hz : cellAt m (j * 9 + i) = 0
      · rw [if_pos hz] at h
        simp at h
        subst h
        exact ⟨i, le_refl i, hi, rfl, hz, fun i3 h1 h2 => by omega⟩
      · rw [if_neg hz] at h
        obtain ⟨i2, h1, h2, h3, h4, h5⟩ := ih (i + 1) k h
        refine ⟨i2, by omega, h2, h3, h4, ?_⟩
        intro i3 hle hlt
        rcases eq_or_lt_of_le hle with rfl | hlt2
        · exact hz
        · exact h5 i3 (by omega) hlt
    · rw [if_neg hi] at h
      cases h

theorem nlRowAux_first (m : List Nat) (j : Nat) :
    ∀ (count i i2 : Nat), 9 ≤ i + count → i ≤ i2 → i2 < 9 →
    cellAt m (j * 9 + i2) = 0 →
    (∀ i3, i ≤ i3 → i3 < i2 → cellAt m (j * 9 + i3) ≠ 0) →
    nlRowAux m 9 j count i = some (j * 9 + i2) := by
  intro count
  induction count with
  | zero =>
    intro i i2 hb h1 h2
    omega
  | succ count ih =>
    intro i i2 hb h1 h2 hz hpre
    simp only [nlRowAux]
    rw [if_pos (by omega : i < 9)]
    rcases eq_or_lt_of_le h1 with rfl | hlt
    · rw [if_pos hz]
    · rw [if_neg (hpre i (le_refl i) hlt)]
      exact ih (i + 1) i2 (by omega) (by omega) h2 hz
        (fun i3 ha hb2 => hpre i3 (by omega) hb2)

theorem nlColAux_none_spec (m : List Nat) :
    ∀ (count j : Nat), 9 ≤ j + count →
    nlColAux m 9 9 count j = none →
    ∀ j2 i2, j ≤ j2 → j2 < 9 → i2 < 9 → cellAt m (j2 * 9 + i2) ≠ 0 := by
  intro count
  induction count with
  | zero =>
    intro j hb _ j2 i2 h1 h2 h3
    omega
  | succ count ih =>
    intro j hb h j2 i2 h1 h2 h3
    simp only [nlColAux] at h
    rw [if_pos (by omega : j < 9)] at h
    cases hrow : nlRowAux m 9 j 9 0 with
    | some k =>
      rw [hrow] at h
      cases h
    | none =>
      rw [hrow] at h
      rcases eq_or_lt_of_le h1 with rfl | hlt
      · exact nlRowAux_none_spec m j 9 0 (by omega) hrow i2 (by omega) h3
      · exact ih (j + 1) (by omega) h j2 i2 (by omega) h2 h3

theorem nlColAux_some_spec (m : List Nat) :
    ∀ (count j k : Nat), nlColAux m 9 9 count j = some k →
    ∃ j2 i2, j ≤ j2 ∧ j2 < 9 ∧ i2 < 9 ∧ k = j2 * 9 + i2 ∧
      cellAt m k = 0 ∧
      (∀ i3, i3 < i2 → cellAt m (j2 * 9 + i3) ≠ 0) ∧
      (∀ j3 i3, j ≤ j3 → j3 < j2 → i3 < 9 → cellAt m (j3 * 9 + i3) ≠ 0) := by
  intro count
  induction count with
  | zero =>
    intro j k h
    cases h
  | succ count ih =>
    intro j k h
    simp only [nlColAux] at h
    by_cases hj : j < 9
    · rw [if_pos hj] at h
      cases hrow : nlRowAux m 9 j 9 0 with
      | some k2 =>
        rw [hrow] at h
        simp at h
        subst h
        obtain ⟨i2, _, h2, h3, h4, h5⟩ := nlRowAux_some_spec m j 9 0 k2 hrow
        exact ⟨j, i2, le_refl j, hj, h2, h3, h4,
          fun i3 hi3 => h5 i3 (by omega) hi3,
          fun j3 i3 ha hb2 _ => by omega⟩
      | none =>
        rw [hrow] at h
        obtain ⟨j2, i2, h1, h2, h3, h4, h5, h6, h7⟩ := ih (j + 1) k h
        refine ⟨j2, i2, by omega, h2, h3, h4, h5, h6, ?_⟩
        intro j3 i3 ha hb2 hc
        rcases eq_or_lt_of_le ha with rfl | hlt
        · exact nlRowAux_none_spec m j 9 0 (by omega) hrow i3 (by omega) hc
        · exact h7 j3 i3 (by omega) hb2 hc
    · rw [if_neg hj] at h
      cases h

theorem nlColAux_first (m : List Nat) :
    ∀ (count j j2 i2 : Nat), 9 ≤ j + count → j ≤ j2 → j2 < 9 → i2 < 9 →
    cellAt m (j2 * 9 + i2) = 0 →
    (∀ i3, i3 < i2 → cellAt m (j2 * 9 + i3) ≠ 0) →
    (∀ j3 i3, j ≤ j3 → j3 < j2 → i3 < 9 → cellAt m (j3 * 9 + i3) ≠ 0) →
    nlColAux m 9 9 count j = some (j2 * 9 + i2) := by
  intro count
  induction count with
  | zero =>
    intro j j2 i2 hb h1 h2
    omega
  | succ count ih =>
    intro j j2 i2 hb h1 h2 h3 hz hpre hrows
    simp only [nlColAux]
    rw [if_pos (by omega : j < 9)]
    rcases eq_or_lt_of_le h1 with rfl | hlt
    · rw [nlRowAux_first m j 9 0 i2 (by omega) (by omega) h3 hz
        (fun i3 _ hi3 => hpre i3 hi3)]
    · cases hrow : nlRowAux m 9 j 9 0 with
      | some k2 =>
        obtain ⟨i3, _, hi3, hk2, hz2, _⟩ := nlRowAux_some_spec m j 9 0 k2 hrow
        exact absurd (hk2 ▸ hz2) (hrows j i3 (le_refl j) hlt hi3)
      | none =>
        exact ih (j + 1) j2 i2 (by omega) (by omega) h2 h3 hz hpre
          (fun j3 i3 ha hb2 hc => hrows j3 i3 (by omega) hb2 hc)

end BT

namespace BT

theorem nextLocation1D_none (m : List Nat) :
    nextLocation1D m = none → ∀ j, j < m.length → cellAt m j ≠ 0 :=
  nlAux_none m 0

theorem nextLocation1D_some (m : List Nat) (k : Nat) :
    nextLocation1D m = some k →
    k < m.length ∧ cellAt m k = 0 ∧ ∀ j, j < k → cellAt m j ≠ 0 := by
  intro h
  obtain ⟨jj, hk, h1, h2, h3⟩ := nlAux_some m 0 k h
  have : k = jj := by omega
  subst this
  exact ⟨h1, h2, h3⟩

theorem nextLocation1D_first (m : List Nat) (k : Nat) (hk : k < m.length)
    (hz : cellAt m k = 0) (hpre : ∀ j, j < k → cellAt m j ≠ 0) :
    nextLocation1D m = some k := by
  have := nlAux_first m 0 k hk hz hpre
  simpa using this

theorem nextLocation2D_none (m : List Nat) :
    nextLocation2D m 9 9 = none → ∀ j, j < 81 → cellAt m j ≠ 0 := by
  intro h j hj
  have h2 := nlColAux_none_spec m 9 0 (by omega) h (j / 9) (j % 9)
    (by omega) (by omega) (by omega)
  have hjeq : j / 9 * 9 + j % 9 = j := by omega
  rw [hjeq] at h2
  exact h2

theorem nextLocation2D_some (m : List Nat) (k : Nat) :
    nextLocation2D m 9 9 = some k →
    k < 81 ∧ cellAt m k = 0 ∧ ∀ j, j < k → cellAt m j ≠ 0 := by
  intro h
  obtain ⟨j2, i2, _, h2, h3, h4, h5, h6, h7⟩ :=
    nlColAux_some_spec m 9 0 k h
  refine ⟨by omega, h5, ?_⟩
  intro l hl
  have hleq : l / 9 * 9 + l % 9 = l := by omega
  by_cases hrow : l / 9 = j2
  · have hi : l % 9 < i2 := by omega
    have := h6 (l % 9) hi
    rw [hrow] at hleq
    rw [← hleq]
    exact this
  · have hjlt : l / 9 < j2 := by omega
    have := h7 (l / 9) (l % 9) (by omega) hjlt (by omega)
    rw [← hleq]
    exact this

theorem nextLocation2D_first (m : List Nat) (k : Nat) (hk : k < 81)
    (hz : cellAt m k = 0) (hpre : ∀ j, j < k → cellAt m j ≠ 0) :
    nextLocation2D m 9 9 = some k := by
  have hkeq : k / 9 * 9 + k % 9 = k := by omega
  have := nlColAux_first m 9 0 (k / 9) (k % 9) (by omega) (by omega)
    (by omega) (by omega) (by rw [hkeq]; exact hz)
    (fun i3 hi3 => hpre (k / 9 * 9 + i3) (by omega))
    (fun j3 i3 _ hj3 hi3 => hpre (j3 * 9 + i3) (by omega))
  rw [nextLocation2D, this, hkeq]

/-- Two cells of the 9x9 grid see each other: same row, same column or
same 3x3 box (the scanned region of `NextCandidate_Sudoku2D`, which
includes the cell itself). -/
def sees2D (i j : Nat) : Prop :=
  j < 81 ∧ (j / 9 = i / 9 ∨ j % 9 = i % 9 ∨
    (j / 9 / 3 = i / 9 / 3 ∧ j % 9 / 3 = i % 9 / 3))

instance (i j : Nat) : Decidable (sees2D i j) := by
  unfold sees2D
  infer_instance

theorem conflict2D_iff (m : List Nat) (i w : Nat) (hi : i < 81) :
    conflict2D m 9 9 i w = true ↔
    ∃ j, sees2D i j ∧ cellAt m j = w := by
  simp only [conflict2D, Bool.or_eq_true, rowHas, colHas, boxHas,
    List.any_eq_true, List.mem_range, beq_iff_eq]
  constructor
  · rintro ((⟨c, hc, hcell⟩ | ⟨r, hr, hcell⟩) | ⟨dj, hdj, di, hdi, hcell⟩)
    · exact ⟨i / 9 * 9 + c, ⟨by omega, Or.inl (by omega)⟩, hcell⟩
    · exact ⟨r * 9 + i % 9, ⟨by omega, Or.inr (Or.inl (by omega))⟩, hcell⟩
    · refine ⟨(i / 9 / 3 * 3 + dj) * 9 + (i % 9 / 3 * 3 + di),
        ⟨by omega, Or.inr (Or.inr ⟨by omega, by omega⟩)⟩, hcell⟩
  · rintro ⟨j, ⟨hj81, hrel⟩, hcell⟩
    rcases hrel with hrow | hcol | ⟨hbr, hbc⟩
    · refine Or.inl (Or.inl ⟨j % 9, by omega, ?_⟩)
      have : i / 9 * 9 + j % 9 = j := by omega
      rw [this]
      exact hcell
    · refine Or.inl (Or.inr ⟨j / 9, by omega, ?_⟩)
      have : j / 9 * 9 + i % 9 = j := by omega
      rw [this]
      exact hcell
    · refine Or.inr ⟨j / 9 % 3, by omega, j % 9 % 3, by omega, ?_⟩
      have : (i / 9 / 3 * 3 + j / 9 % 3) * 9 + (i % 9 / 3 * 3 + j % 9 % 3)
          = j := by omega
      rw [this]
      exact hcell

end BT

namespace BT

/-- C7: both `NextCandidate` functors return the smallest value `w` with
`current < w ≤ 9` satisfying the variant's domain constraint (absent from
the whole array for 1-D; absent from the row, column and enclosing 3x3 box
for 2-D) and write it into the cell; when no such value exists they write
0 and return 0. -/
theorem nextCandidate_functors_spec :
    (∀ (m : List Nat) (i : Nat), i < m.length →
      ((nextCandidate1D m i).1 ≠ 0 →
        cellAt m i < (nextCandidate1D m i).1 ∧
        (nextCandidate1D m i).1 ≤ 9 ∧
        (∀ j, j < m.length → cellAt m j ≠ (nextCandidate1D m i).1) ∧
        (∀ u, cellAt m i < u → u < (nextCandidate1D m i).1 →
          ∃ j, j < m.length ∧ cellAt m j = u) ∧
        (nextCandidate1D m i).2 = m.set i (nextCandidate1D m i).1) ∧
      ((nextCandidate1D m i).1 = 0 →
        (∀ w, cellAt m i < w → w ≤ 9 →
          ∃ j, j < m.length ∧ cellAt m j = w) ∧
        (nextCandidate1D m i).2 = m.set i 0)) ∧
    (∀ (m : List Nat) (i : Nat), m.length = 81 → i < 81 →
      ((nextCandidate2D m 9 9 i).1 ≠ 0 →
        cellAt m i < (nextCandidate2D m 9 9 i).1 ∧
        (nextCandidate2D m 9 9 i).1 ≤ 9 ∧
        (∀ j, sees2D i j → cellAt m j ≠ (nextCandidate2D m 9 9 i).1) ∧
        (∀ u, cellAt m i < u → u < (nextCandidate2D m 9 9 i).1 →
          ∃ j, sees2D i j ∧ cellAt m j = u) ∧
        (nextCandidate2D m 9 9 i).2 = m.set i (nextCandidate2D m 9 9 i).1) ∧
      ((nextCandidate2D m 9 9 i).1 = 0 →
        (∀ w, cellAt m i < w → w ≤ 9 →
          ∃ j, sees2D i j ∧ cellAt m j = w) ∧
        (nextCandidate2D m 9 9 i).2 = m.set i 0)) := by
  constructor
  · intro m i _
    cases hcl : candLoop (fun w => existsVal m w) (cellAt m i + 1) with
    | some w =>
      rw [candLoop] at hcl
      obtain ⟨h1, h2, h3, h4⟩ := candLoopAux_some _ _ _ _ hcl
      rw [← candLoop] at hcl
      constructor
      · intro _
        simp only [nextCandidate1D, hcl]
        refine ⟨by omega, h2, ?_, ?_, trivial⟩
        · intro j hj hcell
          have ht : existsVal m w = true :=
            (existsVal_iff m w).mpr ⟨j, hj, hcell⟩
          rw [h3] at ht
          cases ht
        · intro u hu1 hu2
          exact (existsVal_iff m u).mp (h4 u (by omega) hu2)
      · intro h0
        simp only [nextCandidate1D, hcl] at h0
        omega
    | none =>
      rw [candLoop] at hcl
      have hn := candLoopAux_none (fun w => existsVal m w) _ _
        (candLoop_bound _) hcl
      rw [← candLoop] at hcl
      constructor
      · intro h0
        simp only [nextCandidate1D, hcl] at h0
        exact absurd rfl h0
      · intro _
        simp only [nextCandidate1D, hcl]
        exact ⟨fun w hw1 hw2 =>
          (existsVal_iff m w).mp (hn w (by omega) hw2), trivial⟩
  · intro m i _ hi
    cases hcl : candLoop (fun w => conflict2D m 9 9 i w)
        (cellAt m i + 1) with
    | some w =>
      rw [candLoop] at hcl
      obtain ⟨h1, h2, h3, h4⟩ := candLoopAux_some _ _ _ _ hcl
      rw [← candLoop] at hcl
      constructor
      · intro _
        simp only [nextCandidate2D, hcl]
        refine ⟨by omega, h2, ?_, ?_, trivial⟩
        · intro j hj hcell
          have ht : conflict2D m 9 9 i w = true :=
            (conflict2D_iff m i w hi).mpr ⟨j, hj, hcell⟩
          rw [h3] at ht
          cases ht
        · intro u hu1 hu2
          exact (conflict2D_iff m i u hi).mp (h4 u (by omega) hu2)
      · intro h0
        simp only [nextCandidate2D, hcl] at h0
        omega
    | none =>
      rw [candLoop] at hcl
      have hn := candLoopAux_none (fun w => conflict2D m 9 9 i w) _ _
        (candLoop_bound _) hcl
      rw [← candLoop] at hcl
      constructor
      · intro h0
        simp only [nextCandidate2D, hcl] at h0
        exact absurd rfl h0
      · intro _
        simp only [nextCandidate2D, hcl]
        exact ⟨fun w hw1 hw2 =>
          (conflict2D_iff m i w hi).mp (hn w (by omega) hw2), trivial⟩

/-- Witness for C7: on the 1-D map `[2, 5, 0]` at cell 2 (current value
0), the functor's result is nonzero and obeys the spec. -/
theorem nextCandidate_functors_spec_witness :
    ((2 : Nat) < ([2, 5, 0] : List Nat).length ∧
      (nextCandidate1D [2, 5, 0] 2).1 ≠ 0) ∧
    cellAt [2, 5, 0] 2 < (nextCandidate1D [2, 5, 0] 2).1 ∧
    (nextCandidate1D [2, 5, 0] 2).1 ≤ 9 ∧
    (∀ j, j < ([2, 5, 0] : List Nat).length →
      cellAt [2, 5, 0] j ≠ (nextCandidate1D [2, 5, 0] 2).1) ∧
    (∀ u, cellAt [2, 5, 0] 2 < u → u < (nextCandidate1D [2, 5, 0] 2).1 →
      ∃ j, j < ([2, 5, 0] : List Nat).length ∧ cellAt [2, 5, 0] j = u) ∧
    (nextCandidate1D [2, 5, 0] 2).2 =
      ([2, 5, 0] : List Nat).set 2 (nextCandidate1D [2, 5, 0] 2).1 :=
  ⟨⟨by decide, by decide⟩,
    (nextCandidate_functors_spec.1 [2, 5, 0] 2 (by decide)).1 (by decide)⟩

end BT

namespace BT

theorem cellAt_set_self (m : List Nat) (i v : Nat) (h : i < m.length) :
    cellAt (m.set i v) i = v := by
  simp [cellAt, List.getD_eq_getD_get?, List.get?_eq_getElem?,
    List.getElem?_set_self (by simpa using h)]

theorem cellAt_set_ne (m : List Nat) (i j v : Nat) (h : i ≠ j) :
    cellAt (m.set i v) j = cellAt m j := by
  simp [cellAt, List.getD_eq_getD_get?, List.get?_eq_getElem?,
    List.getElem?_set_ne h]

theorem cellAt_oob (m : List Nat) (j : Nat) (h : m.length ≤ j) :
    cellAt m j = 0 :=
  List.getD_eq_default _ _ h

/-- The cells of the initial map that start empty, in increasing order. -/
def emptiesOf (n : Nat) (m0 : List Nat) : List Nat :=
  (List.range n).filter (fun i => cellAt m0 i == 0)

theorem mem_emptiesOf (n : Nat) (m0 : List Nat) (i : Nat) :
    i ∈ emptiesOf n m0 ↔ i < n ∧ cellAt m0 i = 0 := by
  simp [emptiesOf, List.mem_filter, List.mem_range]

theorem emptiesOf_sorted (n : Nat) (m0 : List Nat) :
    (emptiesOf n m0).Pairwise (· < ·) :=
  List.Pairwise.sublist (List.filter_sublist _) (List.pairwise_lt_range n)

theorem emptiesOf_getD_lt (n : Nat) (m0 : List Nat) (k1 k2 : Nat)
    (h12 : k1 < k2) (h2 : k2 < (emptiesOf n m0).length) :
    (emptiesOf n m0).getD k1 0 < (emptiesOf n m0).getD k2 0 := by
  have h1 : k1 < (emptiesOf n m0).length := lt_trans h12 h2
  rw [List.getD_eq_getElem _ _ h1, List.getD_eq_getElem _ _ h2]
  exact List.pairwise_iff_getElem.mp (emptiesOf_sorted n m0) k1 k2 h1 h2 h12

theorem emptiesOf_getD_mem (n : Nat) (m0 : List Nat) (k : Nat)
    (h : k < (emptiesOf n m0).length) :
    (emptiesOf n m0).getD k 0 < n ∧
    cellAt m0 ((emptiesOf n m0).getD k 0) = 0 := by
  have : (emptiesOf n m0).getD k 0 ∈ emptiesOf n m0 := by
    rw [List.getD_eq_getElem _ _ h]
    exact List.getElem_mem h
  exact (mem_emptiesOf n m0 _).mp this

theorem emptiesOf_index_of_mem (n : Nat) (m0 : List Nat) (i : Nat)
    (h : i ∈ emptiesOf n m0) :
    ∃ k, k < (emptiesOf n m0).length ∧ (emptiesOf n m0).getD k 0 = i := by
  obtain ⟨k, hk, hget⟩ := List.mem_iff_getElem.mp h
  exact ⟨k, hk, by rw [List.getD_eq_getElem _ _ hk]; exact hget⟩

theorem take_succ_getD (E : List Nat) (d : Nat) (h : d < E.length) :
    E.take (d + 1) = E.take d ++ [E.getD d 0] := by
  rw [List.take_succ, List.getD_eq_getElem _ _ h,
    List.getElem?_eq_getElem h]
  rfl

/-- A full valid assignment extending the initial map: values 1..9,
agreeing with every originally nonzero cell, and without conflicts between
distinct cells that see each other. -/
def IsSol (n : Nat) (Sees : Nat → Nat → Prop) (m0 : List Nat)
    (σ : Nat → Nat) : Prop :=
  (∀ i, i < n → 1 ≤ σ i ∧ σ i ≤ 9) ∧
  (∀ i, i < n → cellAt m0 i ≠ 0 → σ i = cellAt m0 i) ∧
  (∀ i j, i < n → j < n → Sees i j → i ≠ j → σ i ≠ σ j)

/-- The assignment agrees with the map on the given cells. -/
def Agrees (σ : Nat → Nat) (m : List Nat) (l : List Nat) : Prop :=
  ∀ j ∈ l, σ j = cellAt m j

/-- The solution `σ` still lies ahead of the depth-first exploration whose
path is the given stack (head = most recent cell): at some stack level the
cells below agree with `σ` and the level's current trial value is below
`σ`'s value there. -/
def Ahead (σ : Nat → Nat) (m : List Nat) : List Nat → Prop
  | [] => False
  | t :: bs => (Agrees σ m bs ∧ cellAt m t < σ t) ∨ Ahead σ m bs

/-- No two distinct cells that see each other hold the same nonzero
value. -/
def PValid (n : Nat) (Sees : Nat → Nat → Prop) (m : List Nat) : Prop :=
  ∀ i j, i < n → j < n → Sees i j → i ≠ j → cellAt m i ≠ 0 →
    cellAt m i ≠ cellAt m j

/-- The success condition: a full map with all values 1..9 and no
conflicts. -/
def FinalOK (n : Nat) (Sees : Nat → Nat → Prop) (m : List Nat) : Prop :=
  m.length = n ∧ (∀ i, i < n → 1 ≤ cellAt m i ∧ cellAt m i ≤ 9) ∧
  ∀ i j, i < n → j < n → Sees i j → i ≠ j → cellAt m i ≠ cellAt m j

theorem Agrees_congr (σ : Nat → Nat) (m m2 : List Nat) (l : List Nat)
    (h : ∀ j ∈ l, cellAt m2 j = cellAt m j) (ha : Agrees σ m l) :
    Agrees σ m2 l :=
  fun j hj => (ha j hj).trans (h j hj).symm

theorem Ahead_congr (σ : Nat → Nat) (m m2 : List Nat) :
    ∀ (l : List Nat), (∀ j ∈ l, cellAt m2 j = cellAt m j) →
    Ahead σ m l → Ahead σ m2 l := by
  intro l
  induction l with
  | nil =>
    intro _ h
    cases h
  | cons t bs ih =>
    intro hc h
    rcases h with ⟨ha, hlt⟩ | h
    · refine Or.inl ⟨Agrees_congr σ m m2 bs
        (fun j hj => hc j (List.mem_cons_of_mem _ hj)) ha, ?_⟩
      rw [hc t (List.mem_cons_self _ _)]
      exact hlt
    · exact Or.inr (ih (fun j hj => hc j (List.mem_cons_of_mem _ hj)) h)

theorem PValid_set_zero (n : Nat) (Sees : Nat → Nat → Prop)
    (m : List Nat) (t : Nat) (h : PValid n Sees m) :
    PValid n Sees (m.set t 0) := by
  intro i j hi hj hs hij hnz
  by_cases hit : i = t
  · subst hit
    by_cases hlt : i < m.length
    · rw [cellAt_set_self m i 0 hlt] at hnz
      exact absurd rfl hnz
    · rw [List.set_eq_of_length_le (by omega)] at hnz ⊢
      exact h i j hi hj hs hij hnz
  · rw [cellAt_set_ne m t i 0 (fun hh => hit hh.symm)] at hnz ⊢
    by_cases hjt : j = t
    · subst hjt
      by_cases hlt : j < m.length
      · rw [cellAt_set_self m j 0 hlt]
        omega
      · rw [List.set_eq_of_length_le (by omega)]
        exact h i j hi hj hs hij hnz
    · rw [cellAt_set_ne m t j 0 (fun hh => hjt hh.symm)]
      exact h i j hi hj hs hij hnz

theorem PValid_set_value (n : Nat) (Sees : Nat → Nat → Prop)
    (m : List Nat) (t w : Nat) (hlen : m.length = n) (ht : t < n)
    (hw : 1 ≤ w) (hsym : ∀ i j, i < n → j < n → Sees i j → Sees j i)
    (habsent : ∀ j, Sees t j → cellAt m j ≠ w)
    (h : PValid n Sees m) : PValid n Sees (m.set t w) := by
  have htl : t < m.length := by omega
  intro i j hi hj hs hij hnz
  by_cases hit : i = t
  · subst hit
    rw [cellAt_set_self m i w htl] at hnz ⊢
    rw [cellAt_set_ne m i j w hij]
    exact fun hh => habsent j hs hh.symm
  · rw [cellAt_set_ne m t i w (fun hh => hit hh.symm)] at hnz ⊢
    by_cases hjt : j = t
    · subst hjt
      rw [cellAt_set_self m j w htl]
      exact habsent i (hsym i j hi hj hs)
    · rw [cellAt_set_ne m t j w (fun hh => hjt hh.symm)]
      exact h i j hi hj hs hij hnz

end BT

namespace BT

theorem sigma_passes (n : Nat) (Sees : Nat → Nat → Prop)
    (conflictB : List Nat → Nat → Nat → Bool) (m0 m : List Nat)
    (σ : Nat → Nat) (t : Nat)
    (Hconf : ∀ (mm : List Nat) (i w : Nat), mm.length = n → i < n →
      1 ≤ w → (conflictB mm i w = true ↔
        ∃ j, Sees i j ∧ cellAt mm j = w))
    (hσ : IsSol n Sees m0 σ) (hlen : m.length = n) (ht : t < n)
    (hagree : ∀ j, j < n → cellAt m j ≠ 0 → j = t ∨ cellAt m j = σ j)
    (hlt : cellAt m t < σ t) :
    conflictB m t (σ t) = false := by
  rcases Bool.eq_false_or_eq_true (conflictB m t (σ t)) with h | h
  swap
  · exact h
  · exfalso
    obtain ⟨j, hsj, hcell⟩ :=
      (Hconf m t (σ t) hlen ht (hσ.1 t ht).1).mp h
    have hσt := (hσ.1 t ht).1
    have hjnz : cellAt m j ≠ 0 := by omega
    have hjn : j < n := by
      by_contra hh
      push_neg at hh
      rw [cellAt_oob m j (by omega)] at hjnz
      exact hjnz rfl
    rcases hagree j hjn hjnz with rfl | hje
    · omega
    · by_cases hjt : j = t
      · subst hjt
        omega
      · exact hσ.2.2 t j ht hjn hsj (fun hh => hjt hh.symm) (by omega)

/-- Potential of a fresh frame at stack position `k` out of `mE` empty
cells: an upper bound on the number of solver steps the subtree below can
take. -/
def Hpot (mE k : Nat) : Nat := 11 ^ (mE - k) - 1

theorem Hpot_rec (mE k : Nat) (h : k < mE) :
    9 * (1 + Hpot mE (k + 1)) + 1 ≤ Hpot mE k := by
  unfold Hpot
  have he : mE - k = (mE - (k + 1)) + 1 := by omega
  rw [he, pow_succ]
  have hx : 1 ≤ 11 ^ (mE - (k + 1)) := Nat.one_le_pow _ _ (by omega)
  omega

/-- Cost of the stack frame at position `k` currently holding trial value
`v`. -/
def frameCost (mE k v : Nat) : Nat := (9 - v) * (1 + Hpot mE (k + 1)) + 1

/-- The termination measure: total remaining cost of the stack frames,
where `vals k` reads the trial value of the k-th empty cell. -/
def measureOf (mE : Nat) (vals : Nat → Nat) (d : Nat) : Nat :=
  ∑ k ∈ Finset.range d, frameCost mE k (vals k)

theorem measure_pop (mE d : Nat) (vals vals2 : Nat → Nat) (hd : 1 ≤ d)
    (hagree : ∀ k, k < d - 1 → vals2 k = vals k) :
    measureOf mE vals2 (d - 1) < measureOf mE vals d := by
  obtain ⟨e, rfl⟩ : ∃ e, d = e + 1 := ⟨d - 1, by omega⟩
  simp only [Nat.add_sub_cancel] at hagree ⊢
  rw [measureOf, measureOf, Finset.sum_range_succ]
  have hcong : ∑ k ∈ Finset.range e, frameCost mE k (vals2 k) =
      ∑ k ∈ Finset.range e, frameCost mE k (vals k) :=
    Finset.sum_congr rfl
      (fun k hk => by rw [hagree k (Finset.mem_range.mp hk)])
  rw [hcong]
  have : 1 ≤ frameCost mE e (vals e) := by
    rw [frameCost]
    omega
  omega

theorem measure_push (mE d : Nat) (vals vals2 : Nat → Nat) (hd : 1 ≤ d)
    (hdm : d < mE) (hvw : vals (d - 1) < vals2 (d - 1))
    (hw9 : vals2 (d - 1) ≤ 9) (hz : vals2 d = 0)
    (hagree : ∀ k, k < d - 1 → vals2 k = vals k) :
    measureOf mE vals2 (d + 1) < measureOf mE vals d := by
  obtain ⟨e, rfl⟩ : ∃ e, d = e + 1 := ⟨d - 1, by omega⟩
  simp only [Nat.add_sub_cancel] at hagree hvw hw9 ⊢
  rw [measureOf, measureOf, Finset.sum_range_succ, Finset.sum_range_succ,
    Finset.sum_range_succ]
  have hcong : ∑ k ∈ Finset.range e, frameCost mE k (vals2 k) =
      ∑ k ∈ Finset.range e, frameCost mE k (vals k) :=
    Finset.sum_congr rfl
      (fun k hk => by rw [hagree k (Finset.mem_range.mp hk)])
  rw [hcong, hz]
  simp only [frameCost]
  have h1 : 9 * (1 + Hpot mE (e + 1 + 1)) + 1 ≤ Hpot mE (e + 1) :=
    Hpot_rec mE (e + 1) hdm
  have h2 : (9 - vals2 e) * (1 + Hpot mE (e + 1)) +
      (1 + Hpot mE (e + 1)) ≤ (9 - vals e) * (1 + Hpot mE (e + 1)) := by
    have hstep : (9 - vals2 e) + 1 ≤ 9 - vals e := by omega
    calc (9 - vals2 e) * (1 + Hpot mE (e + 1)) + (1 + Hpot mE (e + 1)) =
        ((9 - vals2 e) + 1) * (1 + Hpot mE (e + 1)) := by ring
      _ ≤ (9 - vals e) * (1 + Hpot mE (e + 1)) :=
        Nat.mul_le_mul_right _ hstep
  omega

end BT

namespace BT

/-- The candidate functors as one generic functor over the conflict
check: `NextCandidate_Sudoku1D` is `ncOf` of the whole-array scan and
`NextCandidate_Sudoku2D` is `ncOf` of the row/column/box scan. -/
def ncOf (conflictB : List Nat → Nat → Nat → Bool) (m : List Nat)
    (i : Nat) : Nat × List Nat :=
  match candLoop (fun w => conflictB m i w) (cellAt m i + 1) with
  | some w => (w, m.set i w)
  | none => (0, m.set i 0)

theorem nc1D_eq :
    (fun m i => nextCandidate1D m i) =
    ncOf (fun mm _ w => existsVal mm w) := rfl

theorem nc2D_eq :
    (fun m i => nextCandidate2D m 9 9 i) =
    ncOf (fun mm i w => conflict2D mm 9 9 i w) := rfl

theorem emptiesOf_getD_inj (n : Nat) (m0 : List Nat) (k1 k2 : Nat)
    (h1 : k1 < (emptiesOf n m0).length)
    (h2 : k2 < (emptiesOf n m0).length) (hne : k1 ≠ k2) :
    (emptiesOf n m0).getD k1 0 ≠ (emptiesOf n m0).getD k2 0 := by
  rcases Nat.lt_or_ge k1 k2 with h | h
  · exact Nat.ne_of_lt (emptiesOf_getD_lt n m0 k1 k2 h h2)
  · have hlt : k2 < k1 := by omega
    exact (Nat.ne_of_lt (emptiesOf_getD_lt n m0 k2 k1 hlt h1)).symm

theorem getD_mem_take (E : List Nat) (k d : Nat) (hk : k < d)
    (hl : k < E.length) : E.getD k 0 ∈ E.take d := by
  have hlt : k < (E.take d).length := by
    rw [List.length_take]
    omega
  rw [List.getD_eq_getElem _ _ hl]
  have hmem := List.getElem_mem hlt
  rw [List.getElem_take] at hmem
  exact hmem

theorem mem_take_index (E : List Nat) (d j : Nat) (h : j ∈ E.take d) :
    ∃ k, k < d ∧ k < E.length ∧ E.getD k 0 = j := by
  obtain ⟨k, hk, hget⟩ := List.mem_iff_getElem.mp h
  have hlen : k < d ∧ k < E.length := by
    rw [List.length_take] at hk
    omega
  refine ⟨k, hlen.1, hlen.2, ?_⟩
  rw [List.getElem_take] at hget
  rw [List.getD_eq_getElem _ _ hlen.2]
  exact hget

theorem take_reverse_cons (E : List Nat) (d : Nat) (h1 : 1 ≤ d)
    (h2 : d ≤ E.length) :
    (E.take d).reverse = E.getD (d - 1) 0 :: (E.take (d - 1)).reverse := by
  obtain ⟨e, rfl⟩ : ∃ e, d = e + 1 := ⟨d - 1, by omega⟩
  simp only [Nat.add_sub_cancel]
  rw [take_succ_getD E e (by omega), List.reverse_append]
  rfl

/-- The loop invariant of the backtracking solver at exploration depth
`d`: the stack holds (top first) the first `d` initially-empty cells, the
cells strictly below the top are committed trial values in 1..9, the
unexplored empty cells are still 0, the prefilled clues are untouched and
the partial assignment is conflict-free. -/
def Inv (n : Nat) (Sees : Nat → Nat → Prop) (m0 : List Nat) (d : Nat)
    (m stk : List Nat) : Prop :=
  m.length = n ∧
  stk = ((emptiesOf n m0).take d).reverse ∧
  d ≤ (emptiesOf n m0).length ∧
  (∀ j, j < n → cellAt m0 j ≠ 0 → cellAt m j = cellAt m0 j) ∧
  (∀ k, k + 1 < d → 1 ≤ cellAt m ((emptiesOf n m0).getD k 0) ∧
    cellAt m ((emptiesOf n m0).getD k 0) ≤ 9) ∧
  (∀ k, d ≤ k → k < (emptiesOf n m0).length →
    cellAt m ((emptiesOf n m0).getD k 0) = 0) ∧
  PValid n Sees m

theorem btIterate_succ (nl : List Nat → Option Nat)
    (nc : List Nat → Nat → Nat × List Nat) (N : Nat) (s : BTState) :
    btIterate nl nc (N + 1) s =
    (if (solveStep nl nc s).2 then btIterate nl nc N (solveStep nl nc s).1
     else ((solveStep nl nc s).1, true)) := rfl

theorem solveStep_cons (nl : List Nat → Option Nat)
    (nc : List Nat → Nat → Nat × List Nat) (m : List Nat) (t : Nat)
    (rest : List Nat) :
    solveStep nl nc ⟨m, t :: rest⟩ = solveCore nl nc ⟨m, t :: rest⟩ := rfl

theorem solveCore_eq (nl : List Nat → Option Nat)
    (c : List Nat → Nat → Nat → Bool) (m : List Nat) (t : Nat)
    (rest : List Nat) :
    solveCore nl (ncOf c) ⟨m, t :: rest⟩ =
    (match candLoop (fun w => c m t w) (cellAt m t + 1) with
     | none => (⟨m.set t 0, rest⟩, true)
     | some w =>
       match nl (m.set t w) with
       | none => (⟨m.set t w, t :: rest⟩, false)
       | some nxt => (⟨m.set t w, nxt :: t :: rest⟩, true)) := by
  rcases hcl : candLoop (fun w => c m t w) (cellAt m t + 1) with _ | w
  · simp [solveCore, ncOf, hcl, List.set_set]
  · obtain ⟨hw1, _, _, _⟩ :=
      candLoopAux_some (fun w => c m t w) (10 - (cellAt m t + 1))
        (cellAt m t + 1) w hcl
    simp only [solveCore, ncOf, hcl, List.headD_cons, List.tail_cons]
    rw [if_neg (by omega : ¬ w = 0)]

theorem btIterate_start (nl : List Nat → Option Nat)
    (nc : List Nat → Nat → Nat × List Nat) (m0 : List Nat) (loc N : Nat)
    (h : nl m0 = some loc) :
    btIterate nl nc (N + 1) ⟨m0, []⟩ =
    btIterate nl nc (N + 1) ⟨m0, [loc]⟩ := by
  rw [btIterate_succ, btIterate_succ]
  have hss : solveStep nl nc ⟨m0, []⟩ = solveStep nl nc ⟨m0, [loc]⟩ := by
    simp [solveStep, h]
  rw [hss]

theorem stack_agree (n : Nat) (m0 m : List Nat) (σ : Nat → Nat) (d : Nat)
    (hd : 1 ≤ d) (hdE : d ≤ (emptiesOf n m0).length)
    (hσpre : ∀ i, i < n → cellAt m0 i ≠ 0 → σ i = cellAt m0 i)
    (hpre : ∀ j, j < n → cellAt m0 j ≠ 0 → cellAt m j = cellAt m0 j)
    (hbeyond : ∀ k, d ≤ k → k < (emptiesOf n m0).length →
      cellAt m ((emptiesOf n m0).getD k 0) = 0)
    (hagr : Agrees σ m (((emptiesOf n m0).take (d - 1)).reverse)) :
    ∀ j, j < n → cellAt m j ≠ 0 →
      j = (emptiesOf n m0).getD (d - 1) 0 ∨ cellAt m j = σ j := by
  intro j hj hjnz
  by_cases hpf : cellAt m0 j = 0
  · have hmem : j ∈ emptiesOf n m0 := (mem_emptiesOf n m0 j).mpr ⟨hj, hpf⟩
    obtain ⟨k, hk, hkj⟩ := emptiesOf_index_of_mem n m0 j hmem
    rcases Nat.lt_trichotomy k (d - 1) with hlt | heq | hgt
    · right
      have hjtake : j ∈ (emptiesOf n m0).take (d - 1) := by
        rw [← hkj]
        exact getD_mem_take _ k (d - 1) hlt hk
      exact (hagr j (List.mem_reverse.mpr hjtake)).symm
    · left
      rw [← hkj, heq]
    · exfalso
      have hz := hbeyond k (by omega) hk
      rw [hkj] at hz
      exact hjnz hz
  · right
    rw [hpre j hj hpf]
    exact (hσpre j hj hpf).symm

theorem set_top_rest_unchanged (n : Nat) (m0 m : List Nat) (d c : Nat)
    (hd : 1 ≤ d) (hdE : d ≤ (emptiesOf n m0).length) :
    ∀ j ∈ ((emptiesOf n m0).take (d - 1)).reverse,
      cellAt (m.set ((emptiesOf n m0).getD (d - 1) 0) c) j = cellAt m j := by
  intro j hj
  obtain ⟨k, hk, hklen, hkj⟩ :=
    mem_take_index _ _ _ (List.mem_reverse.mp hj)
  apply cellAt_set_ne
  intro hh
  rw [← hkj] at hh
  exact emptiesOf_getD_inj n m0 (d - 1) k (by omega) hklen (by omega) hh

end BT

namespace BT

theorem bt_main (n : Nat) (Sees : Nat → Nat → Prop)
    (conflictB : List Nat → Nat → Nat → Bool)
    (nl : List Nat → Option Nat) (m0 : List Nat) (σ : Nat → Nat)
    (Hsym : ∀ i j, i < n → j < n → Sees i j → Sees j i)
    (Hconf : ∀ (mm : List Nat) (i w : Nat), mm.length = n → i < n →
      1 ≤ w → (conflictB mm i w = true ↔ ∃ j, Sees i j ∧ cellAt mm j = w))
    (Hnl_none : ∀ mm, mm.length = n → nl mm = none →
      ∀ j, j < n → cellAt mm j ≠ 0)
    (Hnl_some : ∀ mm k, mm.length = n → nl mm = some k →
      k < n ∧ cellAt mm k = 0 ∧ ∀ j, j < k → cellAt mm j ≠ 0)
    (hσ : IsSol n Sees m0 σ) (hm0 : m0.length = n) :
    ∀ (fuel d : Nat) (m stk : List Nat),
    Inv n Sees m0 d m stk → 1 ≤ d → Ahead σ m stk →
    measureOf (emptiesOf n m0).length
      (fun k => cellAt m ((emptiesOf n m0).getD k 0)) d < fuel →
    ∃ s2, btIterate nl (ncOf conflictB) fuel ⟨m, stk⟩ = (s2, true) ∧
      FinalOK n Sees s2.map := by
  intro fuel
  induction fuel with
  | zero =>
    intro d m stk _ _ _ hm
    omega
  | succ N ih =>
    intro d m stk hInv hd hAhead hmeas
    obtain ⟨hlen, hstk, hdE, hpre, hbelow, hbeyond, hPV⟩ := hInv
    subst hstk
    have hE1 : d - 1 < (emptiesOf n m0).length := by omega
    have hcons : ((emptiesOf n m0).take d).reverse =
        (emptiesOf n m0).getD (d - 1) 0 ::
        ((emptiesOf n m0).take (d - 1)).reverse :=
      take_reverse_cons _ d hd hdE
    set t := (emptiesOf n m0).getD (d - 1) 0 with htdef
    rw [hcons] at hAhead ⊢
    have htn : t < n := (emptiesOf_getD_mem n m0 (d - 1) hE1).1
    have htm0 : cellAt m0 t = 0 := (emptiesOf_getD_mem n m0 (d - 1) hE1).2
    have htlen : t < m.length := by omega
    rcases hcl : candLoop (fun w => conflictB m t w) (cellAt m t + 1)
      with _ | w
    · -- candidates exhausted: clear the cell and pop
      have hall : ∀ u, cellAt m t + 1 ≤ u → u ≤ 9 →
          conflictB m t u = true :=
        candLoopAux_none (fun w => conflictB m t w)
          (10 - (cellAt m t + 1)) (cellAt m t + 1)
          (candLoop_bound (cellAt m t + 1)) hcl
      rcases hAhead with ⟨hagr, hlt⟩ | hdeep
      · exfalso
        have hagree := stack_agree n m0 m σ d hd hdE hσ.2.1 hpre
          hbeyond hagr
        have hpass : conflictB m t (σ t) = false :=
          sigma_passes n Sees conflictB m0 m σ t Hconf hσ hlen htn
            hagree hlt
        have hc : conflictB m t (σ t) = true :=
          hall (σ t) (by omega) (hσ.1 t htn).2
        rw [hpass] at hc
        exact Bool.false_ne_true hc
      · have hd2 : 2 ≤ d := by
          by_contra hh
          have hnil : ((emptiesOf n m0).take (d - 1)).reverse = [] := by
            rw [show d - 1 = 0 by omega]
            simp
          rw [hnil] at hdeep
          cases hdeep
        have hupd : ∀ j ∈ ((emptiesOf n m0).take (d - 1)).reverse,
            cellAt (m.set t 0) j = cellAt m j :=
          set_top_rest_unchanged n m0 m d 0 hd hdE
        have hlen2 : (m.set t 0).length = n := by
          rw [List.length_set]
          exact hlen
        have hpre2 : ∀ j, j < n → cellAt m0 j ≠ 0 →
            cellAt (m.set t 0) j = cellAt m0 j := by
          intro j hj hnz
          have hne : t ≠ j := by
            intro hh
            rw [← hh] at hnz
            exact hnz htm0
          rw [cellAt_set_ne m t j 0 hne]
          exact hpre j hj hnz
        have hother : ∀ k, k < (emptiesOf n m0).length → k ≠ d - 1 →
            cellAt (m.set t 0) ((emptiesOf n m0).getD k 0) =
            cellAt m ((emptiesOf n m0).getD k 0) := by
          intro k hklen hkne
          exact cellAt_set_ne m t _ 0
            (emptiesOf_getD_inj n m0 (d - 1) k hE1 hklen
              (fun he => hkne he.symm))
        have hbel2 : ∀ k, k + 1 < d - 1 →
            1 ≤ cellAt (m.set t 0) ((emptiesOf n m0).getD k 0) ∧
            cellAt (m.set t 0) ((emptiesOf n m0).getD k 0) ≤ 9 := by
          intro k hk
          have hb := hbelow k (by omega)
          have hup := hother k (by omega) (by omega)
          omega
        have hbey2 : ∀ k, d - 1 ≤ k → k < (emptiesOf n m0).length →
            cellAt (m.set t 0) ((emptiesOf n m0).getD k 0) = 0 := by
          intro k hk1 hk2
          by_cases hke : k = d - 1
          · rw [hke, ← htdef]
            exact cellAt_set_self m t 0 htlen
          · have hup := hother k hk2 hke
            have hz := hbeyond k (by omega) hk2
            omega
        have hAhead2 : Ahead σ (m.set t 0)
            (((emptiesOf n m0).take (d - 1)).reverse) :=
          Ahead_congr σ m (m.set t 0) _ hupd hdeep
        have hmagree : ∀ k, k < d - 1 →
            cellAt (m.set t 0) ((emptiesOf n m0).getD k 0) =
            cellAt m ((emptiesOf n m0).getD k 0) :=
          fun k hk => hother k (by omega) (by omega)
        have hpop := measure_pop (emptiesOf n m0).length d
          (fun k => cellAt m ((emptiesOf n m0).getD k 0))
          (fun k => cellAt (m.set t 0) ((emptiesOf n m0).getD k 0))
          hd hmagree
        obtain ⟨s2, hrun, hfin⟩ := ih (d - 1) (m.set t 0)
          (((emptiesOf n m0).take (d - 1)).reverse)
          ⟨hlen2, rfl, by omega, hpre2, hbel2, hbey2,
            PValid_set_zero n Sees m t hPV⟩
          (by omega) hAhead2 (by omega)
        refine ⟨s2, ?_, hfin⟩
        have hstep : btIterate nl (ncOf conflictB) (N + 1)
            ⟨m, t :: ((emptiesOf n m0).take (d - 1)).reverse⟩ =
            btIterate nl (ncOf conflictB) N
            ⟨m.set t 0, ((emptiesOf n m0).take (d - 1)).reverse⟩ := by
          rw [btIterate_succ, solveStep_cons, solveCore_eq, hcl]
          rfl
        exact hstep.trans hrun
    · -- a candidate w was found and written into the cell
      obtain ⟨hw1, hw9, hwconf, hwall⟩ :=
        candLoopAux_some (fun w => conflictB m t w)
          (10 - (cellAt m t + 1)) (cellAt m t + 1) w hcl
      have habsent : ∀ j, Sees t j → cellAt m j ≠ w := by
        intro j hsj hcell
        have hc : conflictB m t w = true :=
          (Hconf m t w hlen htn (by omega)).mpr ⟨j, hsj, hcell⟩
        rw [hwconf] at hc
        exact Bool.false_ne_true hc
      have hPV2 : PValid n Sees (m.set t w) :=
        PValid_set_value n Sees m t w hlen htn (by omega) Hsym
          habsent hPV
      have hlen2 : (m.set t w).length = n := by
        rw [List.length_set]
        exact hlen
      have hpre2 : ∀ j, j < n → cellAt m0 j ≠ 0 →
          cellAt (m.set t w) j = cellAt m0 j := by
        intro j hj hnz
        have hne : t ≠ j := by
          intro hh
          rw [← hh] at hnz
          exact hnz htm0
        rw [cellAt_set_ne m t j w hne]
        exact hpre j hj hnz
      have hself : cellAt (m.set t w) t = w := cellAt_set_self m t w htlen
      have hother : ∀ k, k < (emptiesOf n m0).length → k ≠ d - 1 →
          cellAt (m.set t w) ((emptiesOf n m0).getD k 0) =
          cellAt m ((emptiesOf n m0).getD k 0) := by
        intro k hklen hkne
        exact cellAt_set_ne m t _ w
          (emptiesOf_getD_inj n m0 (d - 1) k hE1 hklen
            (fun he => hkne he.symm))
      rcases hnl : nl (m.set t w) with _ | nxt
      · -- no empty cell remains: run() returns, the map is solved
        have hfull : ∀ j, j < n → cellAt (m.set t w) j ≠ 0 :=
          Hnl_none (m.set t w) hlen2 hnl
        have hrange : ∀ j, j < n → 1 ≤ cellAt (m.set t w) j ∧
            cellAt (m.set t w) j ≤ 9 := by
          intro j hj
          by_cases hpf : cellAt m0 j = 0
          · have hmem : j ∈ emptiesOf n m0 :=
              (mem_emptiesOf n m0 j).mpr ⟨hj, hpf⟩
            obtain ⟨k, hklen, hkj⟩ := emptiesOf_index_of_mem n m0 j hmem
            rcases Nat.lt_trichotomy k (d - 1) with hklt | hkeq | hkgt
            · have hb := hbelow k (by omega)
              have hup := hother k hklen (by omega)
              rw [hkj] at hb hup
              omega
            · have hjt : j = t := by
                rw [← hkj, hkeq, htdef]
              rw [hjt, hself]
              omega
            · have hz := hbeyond k (by omega) hklen
              have hup := hother k hklen (by omega)
              rw [hkj] at hz hup
              exfalso
              exact hfull j hj (by omega)
          · have heq := hpre2 j hj hpf
            have h1 := hσ.2.1 j hj hpf
            have h2 := hσ.1 j hj
            omega
        refine ⟨⟨m.set t w, t :: ((emptiesOf n m0).take (d - 1)).reverse⟩,
          ?_, ?_⟩
        · rw [btIterate_succ, solveStep_cons, solveCore_eq, hcl]
          dsimp only
          rw [hnl]
          rfl
        · exact ⟨hlen2, hrange,
            fun i j hi hj hs hij => hPV2 i j hi hj hs hij (hfull i hi)⟩
      · -- a next empty location was pushed
        obtain ⟨hnxtn, hnxt0, hnxtfirst⟩ :=
          Hnl_some (m.set t w) nxt hlen2 hnl
        have hnxtm0 : cellAt m0 nxt = 0 := by
          by_contra hh
          have heq := hpre2 nxt hnxtn hh
          rw [heq] at hnxt0
          exact hh hnxt0
        have hmemE : nxt ∈ emptiesOf n m0 :=
          (mem_emptiesOf n m0 nxt).mpr ⟨hnxtn, hnxtm0⟩
        obtain ⟨k0, hk0len, hk0get⟩ :=
          emptiesOf_index_of_mem n m0 nxt hmemE
        have hk0ge : d ≤ k0 := by
          by_contra hh
          push_neg at hh
          rcases Nat.lt_trichotomy k0 (d - 1) with hklt | hkeq | hkgt
          · have hb := hbelow k0 (by omega)
            have hup := hother k0 hk0len (by omega)
            rw [hk0get] at hb hup
            omega
          · have hnt : nxt = t := by
              rw [← hk0get, hkeq, htdef]
            rw [hnt, hself] at hnxt0
            omega
          · omega
        have hdlt : d < (emptiesOf n m0).length := by omega
        have hk0d : k0 = d := by
          by_contra hh
          have hk0gt : d < k0 := by omega
          have hEd0 : cellAt m ((emptiesOf n m0).getD d 0) = 0 :=
            hbeyond d (le_refl d) hdlt
          have hup := hother d hdlt (by omega)
          have hlt2 : (emptiesOf n m0).getD d 0 < nxt := by
            rw [← hk0get]
            exact emptiesOf_getD_lt n m0 d k0 hk0gt hk0len
          exact hnxtfirst _ hlt2 (by omega)
        have hnxtget : (emptiesOf n m0).getD d 0 = nxt := by
          rw [← hk0get, hk0d]
        have hupd : ∀ j ∈ ((emptiesOf n m0).take (d - 1)).reverse,
            cellAt (m.set t w) j = cellAt m j :=
          set_top_rest_unchanged n m0 m d w hd hdE
        have hAhead2 : Ahead σ (m.set t w)
            (nxt :: t :: ((emptiesOf n m0).take (d - 1)).reverse) := by
          rcases hAhead with ⟨hagr, hlt⟩ | hdeep
          · have hagree := stack_agree n m0 m σ d hd hdE hσ.2.1 hpre
              hbeyond hagr
            have hpass : conflictB m t (σ t) = false :=
              sigma_passes n Sees conflictB m0 m σ t Hconf hσ hlen htn
                hagree hlt
            have hwle : w ≤ σ t := by
              by_contra hh
              push_neg at hh
              have hc := hwall (σ t) (by omega) hh
              rw [hpass] at hc
              exact Bool.false_ne_true hc
            have hAgrees2 : Agrees σ (m.set t w)
                (((emptiesOf n m0).take (d - 1)).reverse) :=
              Agrees_congr σ m _ _ hupd hagr
            rcases Nat.eq_or_lt_of_le hwle with heq | hlt2
            · refine Or.inl ⟨?_, ?_⟩
              · intro j hj
                rcases List.mem_cons.mp hj with rfl | hj2
                · rw [hself]
                  exact heq.symm
                · exact hAgrees2 j hj2
              · have hnz := hσ.1 nxt hnxtn
                omega
            · exact Or.inr (Or.inl ⟨hAgrees2, by rw [hself]; exact hlt2⟩)
          · exact Or.inr (Or.inr (Ahead_congr σ m (m.set t w) _ hupd hdeep))
        have hstk2 : (((emptiesOf n m0).take (d + 1)).reverse) =
            nxt :: t :: ((emptiesOf n m0).take (d - 1)).reverse := by
          rw [take_reverse_cons _ (d + 1) (by omega) (by omega),
            Nat.add_sub_cancel, hnxtget, hcons]
        have hbel2 : ∀ k, k + 1 < d + 1 →
            1 ≤ cellAt (m.set t w) ((emptiesOf n m0).getD k 0) ∧
            cellAt (m.set t w) ((emptiesOf n m0).getD k 0) ≤ 9 := by
          intro k hk
          by_cases hke : k = d - 1
          · have hkw : cellAt (m.set t w) ((emptiesOf n m0).getD k 0)
                = w := by
              rw [hke, ← htdef]
              exact hself
            omega
          · have hb := hbelow k (by omega)
            have hup := hother k (by omega) hke
            omega
        have hbey2 : ∀ k, d + 1 ≤ k → k < (emptiesOf n m0).length →
            cellAt (m.set t w) ((emptiesOf n m0).getD k 0) = 0 := by
          intro k hk1 hk2
          have hup := hother k hk2 (by omega)
          have hz := hbeyond k (by omega) hk2
          omega
        have hmagree : ∀ k, k < d - 1 →
            cellAt (m.set t w) ((emptiesOf n m0).getD k 0) =
            cellAt m ((emptiesOf n m0).getD k 0) :=
          fun k hk => hother k (by omega) (by omega)
        have hv2d1 : cellAt (m.set t w) ((emptiesOf n m0).getD (d - 1) 0)
            = w := by
          rw [← htdef]
          exact hself
        have hvd1 : cellAt m ((emptiesOf n m0).getD (d - 1) 0) =
            cellAt m t := by
          rw [← htdef]
        have hv2d : cellAt (m.set t w) ((emptiesOf n m0).getD d 0)
            = 0 := by
          rw [hnxtget]
          exact hnxt0
        have hpush := measure_push (emptiesOf n m0).length d
          (fun k => cellAt m ((emptiesOf n m0).getD k 0))
          (fun k => cellAt (m.set t w) ((emptiesOf n m0).getD k 0))
          hd hdlt
          (by
            show cellAt m ((emptiesOf n m0).getD (d - 1) 0) <
              cellAt (m.set t w) ((emptiesOf n m0).getD (d - 1) 0)
            omega)
          (by
            show cellAt (m.set t w) ((emptiesOf n m0).getD (d - 1) 0) ≤ 9
            omega)
          (by
            show cellAt (m.set t w) ((emptiesOf n m0).getD d 0) = 0
            exact hv2d)
          hmagree
        obtain ⟨s2, hrun, hfin⟩ := ih (d + 1) (m.set t w)
          (nxt :: t :: ((emptiesOf n m0).take (d - 1)).reverse)
          ⟨hlen2, hstk2.symm, by omega, hpre2, hbel2, hbey2, hPV2⟩
          (by omega) hAhead2 (by omega)
        refine ⟨s2, ?_, hfin⟩
        have hstep : btIterate nl (ncOf conflictB) (N + 1)
            ⟨m, t :: ((emptiesOf n m0).take (d - 1)).reverse⟩ =
            btIterate nl (ncOf conflictB) N
            ⟨m.set t w,
              nxt :: t :: ((emptiesOf n m0).take (d - 1)).reverse⟩ := by
          rw [btIterate_succ, solveStep_cons, solveCore_eq, hcl]
          dsimp only
          rw [hnl]
          rfl
        exact hstep.trans hrun

end BT

namespace BT

theorem bt_complete (n : Nat) (Sees : Nat → Nat → Prop)
    (conflictB : List Nat → Nat → Nat → Bool)
    (nl : List Nat → Option Nat) (m0 : List Nat) (σ : Nat → Nat)
    (Hsym : ∀ i j, i < n → j < n → Sees i j → Sees j i)
    (Hconf : ∀ (mm : List Nat) (i w : Nat), mm.length = n → i < n →
      1 ≤ w → (conflictB mm i w = true ↔ ∃ j, Sees i j ∧ cellAt mm j = w))
    (Hnl_none : ∀ mm, mm.length = n → nl mm = none →
      ∀ j, j < n → cellAt mm j ≠ 0)
    (Hnl_some : ∀ mm k, mm.length = n → nl mm = some k →
      k < n ∧ cellAt mm k = 0 ∧ ∀ j, j < k → cellAt mm j ≠ 0)
    (hσ : IsSol n Sees m0 σ) (hm0 : m0.length = n) :
    ∃ N s2, btIterate nl (ncOf conflictB) N ⟨m0, []⟩ = (s2, true) ∧
      FinalOK n Sees s2.map := by
  rcases h0 : nl m0 with _ | loc
  · refine ⟨1, ⟨m0, []⟩, ?_, ?_⟩
    · have hss : solveStep nl (ncOf conflictB) ⟨m0, []⟩ =
          (⟨m0, []⟩, false) := by
        simp [solveStep, h0]
      rw [show (1 : Nat) = 0 + 1 from rfl, btIterate_succ, hss]
      rfl
    · have hfull := Hnl_none m0 hm0 h0
      show FinalOK n Sees m0
      refine ⟨hm0, ?_, ?_⟩
      · intro i hi
        have h1 := hσ.2.1 i hi (hfull i hi)
        have h2 := hσ.1 i hi
        omega
      · intro i j hi hj hs hij
        have h1 := hσ.2.1 i hi (hfull i hi)
        have h2 := hσ.2.1 j hj (hfull j hj)
        have h3 := hσ.2.2 i j hi hj hs hij
        omega
  · obtain ⟨hlocn, hloc0, hlocfirst⟩ := Hnl_some m0 loc hm0 h0
    have hmemE : loc ∈ emptiesOf n m0 :=
      (mem_emptiesOf n m0 loc).mpr ⟨hlocn, hloc0⟩
    obtain ⟨k0, hk0len, hk0get⟩ := emptiesOf_index_of_mem n m0 loc hmemE
    have hk00 : k0 = 0 := by
      by_contra hh
      have h1 : (emptiesOf n m0).getD 0 0 < loc := by
        rw [← hk0get]
        exact emptiesOf_getD_lt n m0 0 k0 (by omega) hk0len
      have h2 := (emptiesOf_getD_mem n m0 0 (by omega)).2
      exact hlocfirst _ h1 h2
    have hget0 : (emptiesOf n m0).getD 0 0 = loc := by
      rw [← hk0get, hk00]
    have hlene : 1 ≤ (emptiesOf n m0).length := by omega
    have hstk1 : [loc] = ((emptiesOf n m0).take 1).reverse := by
      rw [take_reverse_cons _ 1 (le_refl 1) hlene,
        show (1 : Nat) - 1 = 0 from rfl, List.take_zero,
        List.reverse_nil, hget0]
    have hPV0 : PValid n Sees m0 := by
      intro i j hi hj hs hij hnz
      by_cases hjz : cellAt m0 j = 0
      · omega
      · have h1 := hσ.2.1 i hi hnz
        have h2 := hσ.2.1 j hj hjz
        have h3 := hσ.2.2 i j hi hj hs hij
        omega
    have hInv1 : Inv n Sees m0 1 m0 [loc] := by
      refine ⟨hm0, hstk1, hlene, fun j hj hnz => rfl, ?_, ?_, hPV0⟩
      · intro k hk
        omega
      · intro k hk1 hk2
        exact (emptiesOf_getD_mem n m0 k hk2).2
    have hAhead1 : Ahead σ m0 [loc] := by
      refine Or.inl ⟨?_, ?_⟩
      · intro j hj
        exact absurd hj (List.not_mem_nil j)
      · have h1 := hσ.1 loc hlocn
        omega
    obtain ⟨s2, hrun, hfin⟩ := bt_main n Sees conflictB nl m0 σ Hsym
      Hconf Hnl_none Hnl_some hσ hm0
      (measureOf (emptiesOf n m0).length
        (fun k => cellAt m0 ((emptiesOf n m0).getD k 0)) 1 + 1)
      1 m0 [loc] hInv1 (le_refl 1) hAhead1 (by omega)
    refine ⟨measureOf (emptiesOf n m0).length
      (fun k => cellAt m0 ((emptiesOf n m0).getD k 0)) 1 + 1, s2, ?_, hfin⟩
    rw [btIterate_start nl (ncOf conflictB) m0 loc _ h0]
    exact hrun

/-- The visibility relation of the 1-D variant: the whole-array scan of
`NextCandidate_Sudoku1D` makes every in-range cell visible from every
cell. -/
def Sees1D (n i j : Nat) : Prop := j < n

instance (n i j : Nat) : Decidable (Sees1D n i j) := by
  unfold Sees1D
  infer_instance

end BT

namespace BT

/-- C2: for every solvable Sudoku map — one admitting a full assignment
`σ` of values 1..9 that extends the given clues without duplicates in the
scanned regions (whole array for the 1-D variant; row, column and 3x3 box
for the 2-D variant on a 9x9 map) — `Backtracking::run()` terminates
(some step budget makes `while (solve());` finish), and on termination
every cell of the map holds a value in 1..9 with no duplicated value
within any scanned region. -/
theorem backtracking_solves_solvable :
    (∀ (m0 : List Nat) (σ : Nat → Nat),
      IsSol m0.length (Sees1D m0.length) m0 σ →
      ∃ N s2, run1D N ⟨m0, []⟩ = (s2, true) ∧
        FinalOK m0.length (Sees1D m0.length) s2.map) ∧
    (∀ (m0 : List Nat) (σ : Nat → Nat), m0.length = 81 →
      IsSol 81 sees2D m0 σ →
      ∃ N s2, run2D N ⟨m0, []⟩ = (s2, true) ∧
        FinalOK 81 sees2D s2.map) := by
  constructor
  · intro m0 σ hσ
    have Hsym : ∀ i j, i < m0.length → j < m0.length →
        Sees1D m0.length i j → Sees1D m0.length j i :=
      fun i j hi _ _ => hi
    have Hconf : ∀ (mm : List Nat) (i w : Nat), mm.length = m0.length →
        i < m0.length → 1 ≤ w →
        ((fun mm _ w => existsVal mm w :
            List Nat → Nat → Nat → Bool) mm i w = true ↔
          ∃ j, Sees1D m0.length i j ∧ cellAt mm j = w) := by
      intro mm i w hlen hi hw
      rw [show (fun mm _ w => existsVal mm w :
          List Nat → Nat → Nat → Bool) mm i w = existsVal mm w from rfl,
        existsVal_iff, hlen]
      exact Iff.rfl
    have Hnone : ∀ mm, mm.length = m0.length →
        nextLocation1D mm = none →
        ∀ j, j < m0.length → cellAt mm j ≠ 0 :=
      fun mm hlen h j hj => nextLocation1D_none mm h j (by omega)
    have Hsome : ∀ mm k, mm.length = m0.length →
        nextLocation1D mm = some k →
        k < m0.length ∧ cellAt mm k = 0 ∧
          ∀ j, j < k → cellAt mm j ≠ 0 := by
      intro mm k hlen h
      obtain ⟨h1, h2, h3⟩ := nextLocation1D_some mm k h
      exact ⟨by omega, h2, h3⟩
    obtain ⟨N, s2, hrun, hfin⟩ := bt_complete m0.length
      (Sees1D m0.length) (fun mm _ w => existsVal mm w) nextLocation1D
      m0 σ Hsym Hconf Hnone Hsome hσ rfl
    refine ⟨N, s2, ?_, hfin⟩
    rw [run1D, nc1D_eq]
    exact hrun
  · intro m0 σ hm081 hσ
    have Hsym : ∀ i j, i < 81 → j < 81 → sees2D i j → sees2D j i := by
      intro i j hi _ hs
      obtain ⟨_, hcase⟩ := hs
      refine ⟨hi, ?_⟩
      rcases hcase with h | h | ⟨h1, h2⟩
      · exact Or.inl h.symm
      · exact Or.inr (Or.inl h.symm)
      · exact Or.inr (Or.inr ⟨h1.symm, h2.symm⟩)
    have Hconf : ∀ (mm : List Nat) (i w : Nat), mm.length = 81 →
        i < 81 → 1 ≤ w →
        ((fun mm i w => conflict2D mm 9 9 i w :
            List Nat → Nat → Nat → Bool) mm i w = true ↔
          ∃ j, sees2D i j ∧ cellAt mm j = w) :=
      fun mm i w _ hi _ => conflict2D_iff mm i w hi
    have Hnone : ∀ mm, mm.length = 81 →
        (fun m => nextLocation2D m 9 9) mm = none →
        ∀ j, j < 81 → cellAt mm j ≠ 0 :=
      fun mm _ h j hj => nextLocation2D_none mm h j hj
    have Hsome : ∀ mm k, mm.length = 81 →
        (fun m => nextLocation2D m 9 9) mm = some k →
        k < 81 ∧ cellAt mm k = 0 ∧ ∀ j, j < k → cellAt mm j ≠ 0 :=
      fun mm k _ h => nextLocation2D_some mm k h
    obtain ⟨N, s2, hrun, hfin⟩ := bt_complete 81 sees2D
      (fun mm i w => conflict2D mm 9 9 i w)
      (fun m => nextLocation2D m 9 9) m0 σ Hsym Hconf Hnone Hsome
      hσ hm081
    refine ⟨N, s2, ?_, hfin⟩
    rw [run2D, nc2D_eq]
    exact hrun

theorem backtracking_solves_solvable_witness :
    ∃ N s2, run1D N ⟨[0, 1, 2], []⟩ = (s2, true) ∧
      FinalOK 3 (Sees1D 3) s2.map :=
  backtracking_solves_solvable.1 [0, 1, 2]
    (fun k => [3, 1, 2].getD k 0)
    ⟨by decide, by decide, by
      intro i j hi hj hs hij
      have hi3 : i < 3 := hi
      have hj3 : j < 3 := hj
      interval_cases i <;> interval_cases j <;>
        first
          | exact absurd rfl hij
          | decide⟩

end BT

namespace TreeSer

/-- A forest of `Node<T>` trees (`T` instantiated with a
whitespace-delimited string token, as read by `operator>>`): either empty
or a first tree (its value and its children) followed by its sibling
trees.  One constructor carrying both the children and the siblings keeps
every function below structurally recursive. -/
inductive ForestS : Type where
  | nil : ForestS
  | cons (value : List Char) (children : ForestS) (siblings : ForestS) :
      ForestS
deriving DecidableEq

/-- `children.size()`: the number of trees at the top level of a
forest. -/
def topCount : ForestS → Nat
  | .nil => 0
  | .cons _ _ sib => topCount sib + 1

/-- Decimal digits of `n` as printed by `operator<<` on an integer; the
fuel argument makes the division loop structural. -/
def natCharsAux : Nat → Nat → List Char
  | 0, _ => []
  | fuel + 1, n =>
    if n < 10 then [Char.ofNat (48 + n)]
    else natCharsAux fuel (n / 10) ++ [Char.ofNat (48 + n % 10)]

def natChars (n : Nat) : List Char := natCharsAux (n + 1) n

/-- `operator<<` applied to each tree of a forest in order: every node
prints `value " {" children.size() " " children... "} "`. -/
def serForest : ForestS → List Char
  | .nil => []
  | .cons v cs sib =>
    v ++ ' ' :: '{' ::
      (natChars (topCount cs) ++ ' ' :: (serForest cs ++ '}' :: ' ' ::
        serForest sib))

/-- `operator<<(os, node)` for one node with value `v` and children
`cs`. -/
def serNode (v : List Char) (cs : ForestS) : List Char :=
  v ++ ' ' :: '{' ::
    (natChars (topCount cs) ++ ' ' :: (serForest cs ++ '}' :: ' ' :: []))

/-- The whitespace class skipped by formatted `istream` extraction. -/
def isWS (c : Char) : Bool :=
  c == ' ' || c == '\t' || c == '\n' || c == '\r'

def skipWS : List Char → List Char
  | [] => []
  | c :: rest => if isWS c then skipWS rest else c :: rest

/-- Longest non-whitespace prefix plus the remaining input. -/
def spanNonWS : List Char → List Char × List Char
  | [] => ([], [])
  | c :: rest =>
    if isWS c then ([], c :: rest)
    else
      let r := spanNonWS rest
      (c :: r.1, r.2)

/-- `is >> value` for a string-valued node: skip whitespace, then read a
token up to the next whitespace. -/
def readToken (s : List Char) : List Char × List Char :=
  spanNonWS (skipWS s)

/-- `is >> ch` for a `char`: skip whitespace and take one character;
`none` models extraction failing at end of input. -/
def readChar (s : List Char) : Option Char × List Char :=
  match skipWS s with
  | [] => (none, [])
  | c :: rest => (some c, rest)

def readDigits : List Char → Nat → Nat × List Char
  | [], acc => (acc, [])
  | c :: rest, acc =>
    if c.isDigit then readDigits rest (acc * 10 + (c.toNat - 48))
    else (acc, c :: rest)

/-- `is >> numChildren` on the digit strings produced by the serializer:
skip whitespace and accumulate decimal digits (a failed extraction
leaves the C++11 value-on-failure 0). -/
def readNat (s : List Char) : Nat × List Char := readDigits (skipWS s) 0

/-- The deserialization loop `for (i = 0; i < numChildren; ++i)
{ is >> *child; push_back; }`, parameterized by the one-node parser. -/
def desList (des1 : List Char → (List Char × ForestS) × List Char) :
    Nat → List Char → ForestS × List Char
  | 0, s => (.nil, s)
  | k + 1, s =>
    let r := des1 s
    let rr := desList des1 k r.2
    (.cons r.1.1 r.1.2 rr.1, rr.2)

/-- `operator>>(is, node)`: clear the children, read the value token, read
one character and bail out (children stay cleared) unless it is `'{'`,
read the child count, recursively read that many children, then read one
character (the expected `'}'`) and return either way.  The fuel bounds the
recursion depth; each recursive call uses one unit. -/
def desNode : Nat → List Char → (List Char × ForestS) × List Char
  | 0, s => (([], .nil), s)
  | f + 1, s =>
    let tv := readToken s
    let rc := readChar tv.2
    if rc.1 = some '{' then
      let rn := readNat rc.2
      let rl := desList (desNode f) rn.1 rn.2
      let rb := readChar rl.2
      ((tv.1, rl.1), rb.2)
    else ((tv.1, .nil), rc.2)

/-- Height of a forest: 0 for the empty forest, and one more than the
children's height for each tree. -/
def heightF : ForestS → Nat
  | .nil => 0
  | .cons _ cs sib => max (heightF cs + 1) (heightF sib)

/-- The character condition of the claim: not whitespace and not a
brace. -/
def validChar (c : Char) : Bool := !isWS c && !(c == '{') && !(c == '}')

/-- Every value in the forest is a nonempty string of valid characters
(nonemptiness is the amendment: the claim omits it). -/
def validF : ForestS → Bool
  | .nil => true
  | .cons v cs sib =>
    (!v.isEmpty && v.all validChar && validF cs) && validF sib

/-- Validity of a single node's value and children. -/
def validNode (v : List Char) (cs : ForestS) : Bool :=
  !v.isEmpty && v.all validChar && validF cs

end TreeSer

namespace TreeSer

theorem skipWS_cons_space (s : List Char) : skipWS (' ' :: s) = skipWS s := by
  simp [skipWS, isWS]

theorem skipWS_no_ws (c : Char) (s : List Char) (h : isWS c = false) :
    skipWS (c :: s) = c :: s := by
  simp [skipWS, h]

theorem spanNonWS_append (v X : List Char)
    (hv : ∀ c ∈ v, isWS c = false) :
    spanNonWS (v ++ ' ' :: X) = (v, ' ' :: X) := by
  induction v with
  | nil => simp [spanNonWS, isWS]
  | cons c v ih =>
    have hc : isWS c = false := hv c (List.mem_cons_self _ _)
    simp [spanNonWS, hc,
      ih (fun d hd => hv d (List.mem_cons_of_mem _ hd))]

theorem readToken_spec (c0 : Char) (v X : List Char)
    (h0 : isWS c0 = false) (hall : ∀ c ∈ v, isWS c = false) :
    readToken (c0 :: (v ++ ' ' :: X)) = (c0 :: v, ' ' :: X) := by
  rw [readToken, skipWS_no_ws c0 _ h0]
  simp [spanNonWS, h0, spanNonWS_append v X hall]

theorem readChar_space_cons (c : Char) (s : List Char)
    (h : isWS c = false) : readChar (' ' :: c :: s) = (some c, s) := by
  rw [readChar, skipWS_cons_space, skipWS_no_ws c s h]

theorem digit_facts : ∀ d, d < 10 →
    (Char.ofNat (48 + d)).isDigit = true ∧
    (Char.ofNat (48 + d)).toNat = 48 + d ∧
    isWS (Char.ofNat (48 + d)) = false := by decide

theorem natCharsAux_digits : ∀ fuel n, ∀ c ∈ natCharsAux fuel n,
    c.isDigit = true ∧ isWS c = false := by
  intro fuel
  induction fuel with
  | zero =>
    intro n c hc
    simp [natCharsAux] at hc
  | succ f ih =>
    intro n c hc
    rw [natCharsAux] at hc
    by_cases h : n < 10
    · rw [if_pos h] at hc
      simp at hc
      subst hc
      exact ⟨(digit_facts n h).1, (digit_facts n h).2.2⟩
    · rw [if_neg h] at hc
      rcases List.mem_append.mp hc with h1 | h2
      · exact ih (n / 10) c h1
      · simp at h2
        subst h2
        exact ⟨(digit_facts (n % 10) (by omega)).1,
          (digit_facts (n % 10) (by omega)).2.2⟩

theorem natCharsAux_foldl : ∀ fuel n acc, n < fuel →
    (natCharsAux fuel n).foldl (fun a ch => a * 10 + (ch.toNat - 48)) acc
    = acc * 10 ^ (natCharsAux fuel n).length + n := by
  intro fuel
  induction fuel with
  | zero =>
    intro n acc h
    omega
  | succ f ih =>
    intro n acc h
    rw [natCharsAux]
    by_cases h10 : n < 10
    · rw [if_pos h10]
      simp only [List.foldl_cons, List.foldl_nil, List.length_cons,
        List.length_nil, Nat.zero_add, pow_one]
      rw [(digit_facts n h10).2.1]
      omega
    · rw [if_neg h10]
      rw [List.foldl_append]
      have hrec : n / 10 < f := by omega
      rw [ih (n / 10) acc hrec]
      simp only [List.foldl_cons, List.foldl_nil, List.length_append,
        List.length_cons, List.length_nil, Nat.zero_add]
      rw [(digit_facts (n % 10) (by omega)).2.1, pow_succ]
      have hmul : acc * ((10 : Nat) ^ (natCharsAux f (n / 10)).length * 10)
          = acc * 10 ^ (natCharsAux f (n / 10)).length * 10 := by ring
      rw [hmul]
      omega

theorem natChars_ne_nil (n : Nat) : natChars n ≠ [] := by
  rw [natChars, natCharsAux]
  by_cases h : n < 10
  · rw [if_pos h]
    simp
  · rw [if_neg h]
    simp

theorem readDigits_append (l : List Char) (c0 : Char) (Y : List Char)
    (acc : Nat) (hl : ∀ c ∈ l, c.isDigit = true)
    (hc0 : c0.isDigit = false) :
    readDigits (l ++ c0 :: Y) acc =
    (l.foldl (fun a ch => a * 10 + (ch.toNat - 48)) acc, c0 :: Y) := by
  induction l generalizing acc with
  | nil =>
    simp only [List.nil_append, List.foldl_nil]
    rw [readDigits, if_neg]
    rw [hc0]
    simp
  | cons c l ih =>
    simp only [List.cons_append, List.foldl_cons]
    rw [readDigits, if_pos (hl c (List.mem_cons_self _ _))]
    exact ih _ (fun d hd => hl d (List.mem_cons_of_mem _ hd))

theorem readNat_spec (n : Nat) (Y : List Char) :
    readNat (natChars n ++ ' ' :: Y) = (n, ' ' :: Y) := by
  obtain ⟨c, l, hcl⟩ : ∃ c l, natChars n = c :: l := by
    cases h : natChars n with
    | nil => exact absurd h (natChars_ne_nil n)
    | cons a b => exact ⟨a, b, rfl⟩
  have hmemprops : ∀ d ∈ natChars n, d.isDigit = true ∧ isWS d = false :=
    natCharsAux_digits (n + 1) n
  rw [readNat, hcl]
  have hskip : skipWS ((c :: l) ++ ' ' :: Y) = (c :: l) ++ ' ' :: Y := by
    simp only [List.cons_append]
    exact skipWS_no_ws c _
      (hmemprops c (by rw [hcl]; exact List.mem_cons_self _ _)).2
  rw [hskip, readDigits_append (c :: l) ' ' Y 0
    (fun d hd => (hmemprops d (by rw [hcl]; exact hd)).1) (by decide)]
  have hfold := natCharsAux_foldl (n + 1) n 0 (by omega)
  rw [show natCharsAux (n + 1) n = c :: l from hcl] at hfold
  rw [hfold]
  simp

theorem desNode_space (g : Nat) (hg : 1 ≤ g) (s : List Char) :
    desNode g (' ' :: s) = desNode g s := by
  obtain ⟨g2, rfl⟩ : ∃ g2, g = g2 + 1 := ⟨g - 1, by omega⟩
  simp only [desNode, readToken, skipWS_cons_space]

theorem serForest_cons (v : List Char) (cs sib : ForestS) :
    serForest (.cons v cs sib) = serNode v cs ++ serForest sib := by
  simp [serForest, serNode, List.append_assoc]

end TreeSer

namespace TreeSer

theorem desNode_serNode : ∀ (fuel : Nat) (v : List Char) (cs : ForestS)
    (rest : List Char), validNode v cs = true → heightF cs + 1 ≤ fuel →
    desNode fuel (serNode v cs ++ rest) = ((v, cs), ' ' :: rest) := by
  intro fuel
  induction fuel with
  | zero =>
    intro v cs rest _ hh
    omega
  | succ f ih =>
    have forestL : ∀ (cs : ForestS) (tail : List Char),
        validF cs = true → heightF cs ≤ f →
        desList (desNode f) (topCount cs)
          (' ' :: (serForest cs ++ tail)) = (cs, ' ' :: tail) := by
      intro cs
      induction cs with
      | nil =>
        intro tail _ _
        rfl
      | cons v ch sib ihch ihsib =>
        intro tail hv hh
        have hmax1 := Nat.le_max_left (heightF ch + 1) (heightF sib)
        have hmax2 := Nat.le_max_right (heightF ch + 1) (heightF sib)
        have hhm : max (heightF ch + 1) (heightF sib) ≤ f := hh
        have hf1 : 1 ≤ f := by omega
        have hsplit : validNode v ch = true ∧ validF sib = true := by
          have h2 : (validNode v ch && validF sib) = true := hv
          rw [Bool.and_eq_true] at h2
          exact h2
        rw [serForest_cons, List.append_assoc]
        simp only [topCount, desList]
        rw [desNode_space f hf1,
          ih v ch (serForest sib ++ tail) hsplit.1 (by omega)]
        dsimp only
        rw [ihsib tail hsplit.2 (by omega)]
    intro v cs rest hv hh
    have hsplit3 : (!v.isEmpty) = true ∧ v.all validChar = true ∧
        validF cs = true := by
      have h2 : ((!v.isEmpty && v.all validChar) && validF cs) = true := hv
      rw [Bool.and_eq_true, Bool.and_eq_true] at h2
      exact ⟨h2.1.1, h2.1.2, h2.2⟩
    obtain ⟨hne, hvc, hvf⟩ := hsplit3
    cases v with
    | nil => simp at hne
    | cons c0 v' =>
      have hallWS : ∀ c ∈ c0 :: v', isWS c = false := by
        intro c hc
        have h3 : (!isWS c && !(c == '{') && !(c == '}')) = true :=
          List.all_eq_true.mp hvc c hc
        rw [Bool.and_eq_true, Bool.and_eq_true] at h3
        have h4 := h3.1.1
        simp at h4
        exact h4
      simp only [serNode, List.cons_append, List.append_assoc,
        List.nil_append]
      simp only [desNode]
      rw [readToken_spec c0 v' _ (hallWS c0 (List.mem_cons_self _ _))
        (fun c hc => hallWS c (List.mem_cons_of_mem _ hc))]
      dsimp only
      rw [readChar_space_cons '{' _ rfl]
      dsimp only
      rw [if_pos rfl, readNat_spec]
      dsimp only
      rw [forestL cs _ hvf (by omega)]
      dsimp only
      rw [readChar_space_cons '}' _ rfl]

end TreeSer

namespace TreeSer

/-- C9 (corrected): serialization round-trips for every tree whose stored
values contain no brace and no whitespace AND are nonempty: deserializing
(`operator>>`) the text produced by serializing (`operator<<`) a node with
value `v` and children `cs` (with any recursion fuel at least the tree's
height) reconstructs the same value and the same ordered child structure,
consuming exactly the serialized text up to its trailing space.  The
nonemptiness condition is the amendment: the claim as stated omits it and
is refuted by `empty_value_roundtrip_cex`. -/
theorem serialize_roundtrip (fuel : Nat) (v : List Char) (cs : ForestS)
    (rest : List Char) (hv : validNode v cs = true)
    (hfuel : heightF cs + 1 ≤ fuel) :
    desNode fuel (serNode v cs ++ rest) = ((v, cs), ' ' :: rest) :=
  desNode_serNode fuel v cs rest hv hfuel

theorem serialize_roundtrip_witness :
    validNode ['a'] (ForestS.cons ['b'] ForestS.nil
      (ForestS.cons ['c'] ForestS.nil ForestS.nil)) = true ∧
    heightF (ForestS.cons ['b'] ForestS.nil
      (ForestS.cons ['c'] ForestS.nil ForestS.nil)) + 1 ≤ 2 ∧
    desNode 2 (serNode ['a'] (ForestS.cons ['b'] ForestS.nil
      (ForestS.cons ['c'] ForestS.nil ForestS.nil)) ++ []) =
    ((['a'], ForestS.cons ['b'] ForestS.nil
      (ForestS.cons ['c'] ForestS.nil ForestS.nil)), [' ']) :=
  ⟨by decide, by decide,
    serialize_roundtrip 2 ['a']
      (ForestS.cons ['b'] ForestS.nil
        (ForestS.cons ['c'] ForestS.nil ForestS.nil)) []
      (by decide) (by decide)⟩

/-- C9 counterexample: the childless node with the EMPTY stored value
satisfies the claim's hypothesis (its value contains no `'\x7b'`, no
`'\x7d'` and no whitespace), yet the round trip fails: the serializer
emits `" \x7b0 \x7d "`, the deserializer's token read skips the leading
space and swallows `"\x7b0"` as the value, and the subsequent character
read sees `'\x7d'` instead of `'\x7b'`.  The fuel 1 equals the tree's
height, so fuel exhaustion is not the cause. -/
theorem empty_value_roundtrip_cex :
    ([] : List Char).all validChar = true ∧
    (desNode 1 (serNode [] ForestS.nil ++ [])).1 ≠ ([], ForestS.nil) :=
  ⟨rfl, by decide⟩

end TreeSer
